import Mathlib

/-!
Verification of the UMI-tools barcode clustering engine (`umi_tools/network.py`).

The Python source is shallowly embedded below.  Conventions:

* A barcode (UMI) string is a `List Char`.
* A Python dict `{umi: [...] for umi in umis}` mapping barcodes to adjacency
  lists is embedded as a function `Barcode → List Barcode`; the key set of the
  dict is always the input list `umis`, which is threaded separately where the
  source iterates over dict keys.
* Python sets are embedded as `Finset Barcode`, except where the source
  converts a set to a list (`sorted(cluster)`, `list(queue)[0]`,
  `list(connected_nodes - observed)`): Python's set iteration order is
  unspecified, so the embedding fixes a canonical order (input order /
  adjacency-list order).  Every property proved below is insensitive to this
  choice except for concrete scenarios, where all counts are distinct so the
  order is forced.
* The `while` loop of `breadth_first_search` and the `for` loop of
  `_get_connected_components_adjacency` are embedded with explicit fuel; the
  pipeline passes fuel `umis.length + 1`, proved sufficient below.
* Python `int` arithmetic in the directional test `counts[a] >= 2*counts[b]-1`
  is embedded over `Int`.
-/

abbrev Barcode := List Char

/-- Modelled from the spec: the Distance Function is the substitution-only
(Hamming) distance between two equal-length barcode strings.  The
implementation (`_dedup_umi.edit_distance`, a Cython module) is not part of
the provided sources. -/
def edit_distance (a b : Barcode) : Nat :=
  (a.zip b).countP (fun p => p.1 ≠ p.2)

/-- `itertools.combinations(umis, 2)`: all ordered-by-position pairs. -/
def pairs : List Barcode → List (Barcode × Barcode)
  | [] => []
  | x :: rest => rest.map (fun y => (x, y)) ++ pairs rest

/-- One stable-insertion step for Python's `sorted(_, key=counts, reverse=True)`:
`x` is placed after every already-placed element whose count is `≥ counts x`. -/
def insertDesc (counts : Barcode → Nat) (x : Barcode) : List Barcode → List Barcode
  | [] => [x]
  | y :: ys => if counts y < counts x then x :: y :: ys else y :: insertDesc counts x ys

/-- Python's `sorted(l, key=lambda x: counts[x], reverse=True)` (a stable sort
by count, descending), embedded as an insertion sort. -/
def sortByCountDesc (counts : Barcode → Nat) (l : List Barcode) : List Barcode :=
  l.foldl (fun acc x => insertDesc counts x acc) []

/-- `adj_list[k].append(v)` on the dict-as-function embedding. -/
def addEdge (adj : Barcode → List Barcode) (k v : Barcode) : Barcode → List Barcode :=
  fun u => if u = k then adj k ++ [v] else adj u

/-- One iteration of the pair loop of `UMIClusterer._get_adj_list_adjacency`. -/
def adjacencyStep (threshold : Nat) (adj : Barcode → List Barcode)
    (p : Barcode × Barcode) : Barcode → List Barcode :=
  if edit_distance p.1 p.2 ≤ threshold then addEdge (addEdge adj p.1 p.2) p.2 p.1 else adj

/-- `UMIClusterer._get_adj_list_adjacency`: symmetric edges between all pairs
within the distance threshold. -/
def get_adj_list_adjacency (umis : List Barcode) (_counts : Barcode → Nat)
    (threshold : Nat) : Barcode → List Barcode :=
  (pairs umis).foldl (adjacencyStep threshold) (fun _ => [])

/-- The directional count test `counts[u1] >= (counts[u2]*2)-1`, over `Int` as
in Python. -/
def dirTest (counts : Barcode → Nat) (u1 u2 : Barcode) : Prop :=
  (counts u1 : Int) ≥ (counts u2 : Int) * 2 - 1

instance (counts : Barcode → Nat) (u1 u2 : Barcode) : Decidable (dirTest counts u1 u2) := by
  unfold dirTest; infer_instance

/-- One iteration of the pair loop of `UMIClusterer._get_adj_list_directional`:
each direction of the pair is decided independently. -/
def directionalStep (counts : Barcode → Nat) (threshold : Nat)
    (adj : Barcode → List Barcode) (p : Barcode × Barcode) : Barcode → List Barcode :=
  if edit_distance p.1 p.2 ≤ threshold then
    let adj1 := if dirTest counts p.1 p.2 then addEdge adj p.1 p.2 else adj
    if dirTest counts p.2 p.1 then addEdge adj1 p.2 p.1 else adj1
  else adj

/-- `UMIClusterer._get_adj_list_directional`. -/
def get_adj_list_directional (umis : List Barcode) (counts : Barcode → Nat)
    (threshold : Nat) : Barcode → List Barcode :=
  (pairs umis).foldl (directionalStep counts threshold) (fun _ => [])

/-- The contribution of one pair to `adj_list[u]` in the adjacency builder. -/
def adjacencyContrib (threshold : Nat) (u : Barcode) (p : Barcode × Barcode) :
    List Barcode :=
  if edit_distance p.1 p.2 ≤ threshold then
    (if u = p.1 then [p.2] else []) ++ (if u = p.2 then [p.1] else [])
  else []

/-- The contribution of one pair to `adj_list[u]` in the directional builder. -/
def directionalContrib (counts : Barcode → Nat) (threshold : Nat) (u : Barcode)
    (p : Barcode × Barcode) : List Barcode :=
  if edit_distance p.1 p.2 ≤ threshold then
    (if u = p.1 ∧ dirTest counts p.1 p.2 then [p.2] else []) ++
      (if u = p.2 ∧ dirTest counts p.2 p.1 then [p.1] else [])
  else []

/-- The edge relation of an adjacency dict: `y ∈ adj_list[x]`. -/
def edgeRel (adj : Barcode → List Barcode) (x y : Barcode) : Prop := y ∈ adj x

/-- Reachability along the (possibly asymmetric) adjacency structure. -/
def Reaches (adj : Barcode → List Barcode) : Barcode → Barcode → Prop :=
  Relation.ReflTransGen (edgeRel adj)

/-- The body of `breadth_first_search`'s `while` loop.  `found` and `searched`
are the Python sets; the Python set `queue` is carried as a list whose head
plays the role of `(list(queue))[0]` (the element Python pops is unspecified;
the final `found` does not depend on the choice).  The `queue.update` /
`queue.difference_update(searched)` pair becomes the filtered append.  `fuel`
bounds the number of iterations; the callers below pass enough fuel, which is
proved sufficient. -/
def bfsLoop (adj : Barcode → List Barcode) :
    Nat → Finset Barcode → List Barcode → Finset Barcode → Finset Barcode
  | 0, found, _, _ => found
  | _ + 1, found, [], _ => found
  | fuel + 1, found, n :: rest, searched =>
    bfsLoop adj fuel (found ∪ (adj n).toFinset)
      (((n :: rest) ++ adj n).filter (fun x => decide (x ∉ insert n searched)))
      (insert n searched)

/-- `breadth_first_search(node, adj_list)`. -/
def breadth_first_search (node : Barcode) (adj : Barcode → List Barcode)
    (fuel : Nat) : Finset Barcode :=
  bfsLoop adj fuel {node} [node] ∅

/-- The `for node in sorted(graph, ...)` loop of
`UMIClusterer._get_connected_components_adjacency`. -/
def ccLoop (adj : Barcode → List Barcode) (fuel : Nat) :
    List Barcode → Finset Barcode → List (Finset Barcode)
  | [], _ => []
  | n :: rest, found =>
    if n ∈ found then ccLoop adj fuel rest found
    else breadth_first_search n adj fuel ::
      ccLoop adj fuel rest (found ∪ breadth_first_search n adj fuel)

/-- `UMIClusterer._get_connected_components_adjacency`: the dict `graph` has
key list `umis`, iterated in stable count-descending order; each unfound node
seeds a breadth-first search. -/
def get_connected_components_adjacency (umis : List Barcode)
    (graph : Barcode → List Barcode) (counts : Barcode → Nat) :
    List (Finset Barcode) :=
  ccLoop graph (umis.length + 1) (sortByCountDesc counts umis) ∅

/-- Specification of the component list produced by `ccLoop`: each component
is the reach-set of a start node that was not found when it was chosen. -/
def ChainSpec (adj : Barcode → List Barcode) :
    Finset Barcode → List (Finset Barcode) → Prop
  | _, [] => True
  | found, c :: rest =>
    (∃ s, s ∉ found ∧ (∀ b, b ∈ c ↔ Reaches adj s b)) ∧ ChainSpec adj (found ∪ c) rest

/-- The total number of (directed) edges of an adjacency dict with key list
`umis`: the sum of the lengths of all adjacency lists. -/
def edgeCount (umis : List Barcode) (adj : Barcode → List Barcode) : Nat :=
  (umis.map (fun u => (adj u).length)).sum

/-- `remove_umis(adj_list, cluster, nodes)`: removes the nodes and all their
direct neighbours from the cluster. -/
def remove_umis (adj_list : Barcode → List Barcode) (cluster : Finset Barcode)
    (nodes : List Barcode) : Finset Barcode :=
  cluster \ ((nodes.map adj_list).flatten ++ nodes).toFinset

/-- `UMIClusterer._get_best_min_account`: greedy search for the shortest
count-descending prefix that accounts for the whole cluster.  The Python
function falls off the end (returning `None`) when no prefix of length
`≤ len-1` works; this is the `none` case. -/
def get_best_min_account (cluster : List Barcode)
    (adj_list : Barcode → List Barcode) (counts : Barcode → Nat) :
    Option (List Barcode) :=
  if cluster.length = 1 then some cluster
  else
    ((List.range ((sortByCountDesc counts cluster).length - 1)).find?
        (fun i => decide (remove_umis adj_list cluster.toFinset
          ((sortByCountDesc counts cluster).take (i + 1)) = ∅))).map
      (fun i => (sortByCountDesc counts cluster).take (i + 1))

/-- One stable-insertion step of an ascending `Nat` sort (for `np.median`). -/
def insertNatAsc (x : Nat) : List Nat → List Nat
  | [] => [x]
  | y :: ys => if x ≤ y then x :: y :: ys else y :: insertNatAsc x ys

def sortNatAsc (l : List Nat) : List Nat :=
  l.foldl (fun acc x => insertNatAsc x acc) []

/-- Modelled from the spec: `np.median` over the supplied counts (the numpy
implementation is external to the sources).  The values are sorted; an odd
number of values yields the middle one, an even number the mean of the two
middle ones.  Floating-point results are modelled as exact rationals. -/
def npMedian (l : List Nat) : ℚ :=
  if (sortNatAsc l).length % 2 = 1 then
    ((sortNatAsc l).getD ((sortNatAsc l).length / 2) 0 : ℚ)
  else
    (((sortNatAsc l).getD ((sortNatAsc l).length / 2 - 1) 0 : ℚ) +
      ((sortNatAsc l).getD ((sortNatAsc l).length / 2) 0 : ℚ)) / 2

/-- `UMIClusterer._get_best_percentile`.  The Python dict `counts` is the
pair (key list `countsKeys`, lookup `counts`); `list(counts.values())` is
`countsKeys.map counts`.  Note the `len(cluster) == 1` short-circuit and that
the median is taken over all supplied counts, not the cluster's. -/
def get_best_percentile (cluster : List Barcode) (countsKeys : List Barcode)
    (counts : Barcode → Nat) : List Barcode :=
  if cluster.length = 1 then cluster
  else cluster.filter
    (fun read => decide ((counts read : ℚ) > npMedian (countsKeys.map counts) / 100))

/-- `UMIClusterer._group_unique`.  For the unique strategy `clusters` is the
raw umi list (`_get_connected_components_null` returns its input). -/
def group_unique (clusters : List Barcode) : List (List Barcode) :=
  if clusters.length = 1 then [clusters] else clusters.map (fun x => [x])

/-- The inner `for node in cluster` loop of `UMIClusterer._group_directional`:
append each not-yet-observed node and mark it observed. -/
def dirSweep : List Barcode → Finset Barcode → List Barcode × Finset Barcode
  | [], obs => ([], obs)
  | x :: xs, obs =>
    if x ∈ obs then dirSweep xs obs
    else ((x :: (dirSweep xs (insert x obs)).1), (dirSweep xs (insert x obs)).2)

/-- The cluster loop of `UMIClusterer._group_directional`, threading the
`observed` set. -/
def group_directional_loop (counts : Barcode → Nat) :
    List (List Barcode) → Finset Barcode → List (List Barcode)
  | [], _ => []
  | c :: rest, obs =>
    if c.length = 1 then
      c :: group_directional_loop counts rest (obs ∪ c.toFinset)
    else
      (dirSweep (sortByCountDesc counts c) obs).1 ::
        group_directional_loop counts rest (dirSweep (sortByCountDesc counts c) obs).2

/-- `UMIClusterer._group_directional`. -/
def group_directional (clusters : List (List Barcode)) (counts : Barcode → Nat) :
    List (List Barcode) :=
  group_directional_loop counts clusters ∅

/-- The `for lead_umi in lead_umis` loop of `UMIClusterer._group_adjacency`:
`list(connected_nodes - observed)` is taken in (deduplicated) adjacency-list
order. -/
def group_adjacency_aux (adj_list : Barcode → List Barcode) :
    List Barcode → Finset Barcode → List (List Barcode)
  | [], _ => []
  | lead :: rest, observed =>
    (lead :: (adj_list lead).dedup.filter (fun x => decide (x ∉ observed))) ::
      group_adjacency_aux adj_list rest (observed ∪ (adj_list lead).toFinset)

/-- One cluster of `UMIClusterer._group_adjacency`.  A `none` result models
the `TypeError` Python would raise iterating over the `None` returned by a
failed `_get_best_min_account`. -/
def group_adjacency_cluster (c : List Barcode) (adj_list : Barcode → List Barcode)
    (counts : Barcode → Nat) : Option (List (List Barcode)) :=
  if c.length = 1 then some [c]
  else (get_best_min_account c adj_list counts).map
    (fun leads => group_adjacency_aux adj_list leads leads.toFinset)

/-- `UMIClusterer._group_adjacency` over all clusters. -/
def group_adjacency (adj_list : Barcode → List Barcode) (counts : Barcode → Nat) :
    List (List Barcode) → Option (List (List Barcode))
  | [] => some []
  | c :: rest =>
    match group_adjacency_cluster c adj_list counts,
        group_adjacency adj_list counts rest with
    | some gs, some rest' => some (gs ++ rest')
    | _, _ => none

/-- `UMIClusterer._group_cluster`: each cluster sorted by count descending. -/
def group_cluster (clusters : List (List Barcode)) (counts : Barcode → Nat) :
    List (List Barcode) :=
  clusters.map (sortByCountDesc counts)

/-- `UMIClusterer._group_percentile`: for the percentile strategy the
"clusters" argument is the raw umi list, which is also the key list of the
counts dict. -/
def group_percentile (umis : List Barcode) (counts : Barcode → Nat) :
    List (List Barcode) :=
  (get_best_percentile umis umis counts).map (fun x => [x])

/-- The five recognised strategy names, as selected in
`UMIClusterer.__init__`. -/
inductive ClusterMethod
  | adjacency | directional | cluster | percentile | unique
deriving DecidableEq

/-- The observable failures of the embedded clusterer.  `emptyInputMax` is
Python's `ValueError` from `max([])`; `inconsistentBarcodeLength` is the
`AssertionError` of the length precondition; `attributeError` is the
`AttributeError` from calling a clusterer whose `__init__` matched no known
strategy name; `noneTypeIteration` is the `TypeError` from iterating over a
`None` lead list.  `unknownStrategy` is the error the spec's taxonomy
prescribes for construction with an unknown name; the code never raises it. -/
inductive UMIError
  | emptyInputMax | inconsistentBarcodeLength | attributeError
  | noneTypeIteration | unknownStrategy
deriving DecidableEq

/-- `UMIClusterer.__init__(cluster_method)`: the if/elif chain binds the
method bundle; a name matching no branch leaves the method attributes unset
(`none`) and the construction itself succeeds. -/
def UMIClusterer_init (cluster_method : String) : Option ClusterMethod :=
  if cluster_method = "adjacency" then some .adjacency
  else if cluster_method = "directional" then some .directional
  else if cluster_method = "cluster" then some .cluster
  else if cluster_method = "percentile" then some .percentile
  else if cluster_method = "unique" then some .unique
  else none

/-- Python set-to-list conversion for the clusters handed to the group
methods, in canonical input order. -/
def clustersToLists (umis : List Barcode) (clusters : List (Finset Barcode)) :
    List (List Barcode) :=
  clusters.map (fun c => umis.filter (fun u => decide (u ∈ c)))

/-- The strategy dispatch of `UMIClusterer.__call__` after the length check:
`adj_list = self.get_adj_list(...)`, `clusters = self.get_connected_components(...)`,
`final_umis = [list(x) for x in self.get_groups(...)]`, with the method
bundle fixed by `__init__`. -/
def runStrategy (m : ClusterMethod) (umis : List Barcode) (counts : Barcode → Nat)
    (threshold : Nat) : Except UMIError (List (List Barcode)) :=
  match m with
  | .unique => .ok (group_unique umis)
  | .percentile => .ok (group_percentile umis counts)
  | .directional =>
    .ok (group_directional
      (clustersToLists umis
        (get_connected_components_adjacency umis
          (get_adj_list_directional umis counts threshold) counts)) counts)
  | .cluster =>
    .ok (group_cluster
      (clustersToLists umis
        (get_connected_components_adjacency umis
          (get_adj_list_adjacency umis counts threshold) counts)) counts)
  | .adjacency =>
    match group_adjacency (get_adj_list_adjacency umis counts threshold) counts
      (clustersToLists umis
        (get_connected_components_adjacency umis
          (get_adj_list_adjacency umis counts threshold) counts)) with
    | some gs => .ok gs
    | none => .error .noneTypeIteration

/-- The precondition check of `UMIClusterer.__call__`:
`len_umis = [len(x) for x in umis]; assert max(len_umis) == min(len_umis)`.
On an empty input `max([])` raises a `ValueError` before the assert can
compare anything. -/
def lengthCheck : List Barcode → Except UMIError Unit
  | [] => .error .emptyInputMax
  | u :: rest =>
    if (rest.map List.length).foldl Nat.max u.length =
        (rest.map List.length).foldl Nat.min u.length
    then .ok () else .error .inconsistentBarcodeLength

/-- `UMIClusterer.__call__` on a clusterer whose `__init__` received the given
name: the length check runs first, then the first method-attribute access
fails (`attributeError`) if no strategy was bound, otherwise the strategy
runs. -/
def clusterer_call (methods : Option ClusterMethod) (umis : List Barcode)
    (counts : Barcode → Nat) (threshold : Nat) :
    Except UMIError (List (List Barcode)) :=
  match lengthCheck umis with
  | .error e => .error e
  | .ok _ =>
    match methods with
    | none => .error .attributeError
    | some m => runStrategy m umis counts threshold

/-- `UMIClusterer(cluster_method)(umis, counts, threshold)` for a recognised
strategy. -/
def UMIClusterer_call (m : ClusterMethod) (umis : List Barcode)
    (counts : Barcode → Nat) (threshold : Nat) :
    Except UMIError (List (List Barcode)) :=
  clusterer_call (some m) umis counts threshold

/-- The three-barcode instance on which the directional rule produces an
asymmetric structure whose components overlap. -/
def c2umis : List Barcode := [['T','T'], ['A','A'], ['A','T']]

def c2counts : Barcode → Nat :=
  fun u => if u = ['T','T'] then 6 else if u = ['A','A'] then 5 else 1

/-- The counts dict for the percentile counterexample:
`{"AA": 1, "CC": 1000, "GG": 1000}`. -/
def c7counts : Barcode → Nat :=
  fun u => if u = ['C','C'] then 1000 else if u = ['G','G'] then 1000 else 1

def c7keys : List Barcode := [['A','A'], ['C','C'], ['G','G']]

/-- A concrete symmetric two-node structure for the C10 witness. -/
def c10adj : Barcode → List Barcode :=
  fun x => if x = ['A'] then [['B']] else if x = ['B'] then [['A']] else []

/-- The four-barcode instance on which the adjacency strategy returns more
groups at threshold 2 than at threshold 1. -/
def c9umis : List Barcode :=
  [['T','A','A','A'], ['A','A','A','A'], ['G','A','C','C'], ['A','A','C','C']]

def c9counts : Barcode → Nat :=
  fun u => if u = ['T','A','A','A'] then 100
    else if u = ['A','A','A','A'] then 90
    else if u = ['G','A','C','C'] then 10 else 9

theorem addEdge_apply (adj : Barcode → List Barcode) (k v u : Barcode) :
    addEdge adj k v u = adj u ++ (if u = k then [v] else []) := by
  unfold addEdge
  by_cases h : u = k
  · subst h; simp
  · simp [h]

theorem adjacencyStep_apply (threshold : Nat) (adj : Barcode → List Barcode)
    (p : Barcode × Barcode) (u : Barcode) :
    adjacencyStep threshold adj p u = adj u ++ adjacencyContrib threshold u p := by
  obtain ⟨x, y⟩ := p
  unfold adjacencyStep adjacencyContrib
  by_cases hd : edit_distance x y ≤ threshold <;>
    simp [hd, addEdge_apply, List.append_assoc]

theorem directionalStep_apply (counts : Barcode → Nat) (threshold : Nat)
    (adj : Barcode → List Barcode) (p : Barcode × Barcode) (u : Barcode) :
    directionalStep counts threshold adj p u =
      adj u ++ directionalContrib counts threshold u p := by
  obtain ⟨x, y⟩ := p
  unfold directionalStep directionalContrib
  by_cases hd : edit_distance x y ≤ threshold
  · by_cases c12 : dirTest counts x y <;> by_cases c21 : dirTest counts y x <;>
      simp [hd, c12, c21, addEdge_apply, List.append_assoc]
  · simp [hd]

/-- Generic pointwise evaluation of a fold that appends per-pair
contributions. -/
theorem foldl_step_apply {step : (Barcode → List Barcode) → Barcode × Barcode → Barcode → List Barcode}
    {contrib : Barcode → Barcode × Barcode → List Barcode}
    (hstep : ∀ adj p u, step adj p u = adj u ++ contrib u p) :
    ∀ (ps : List (Barcode × Barcode)) (adj : Barcode → List Barcode) (u : Barcode),
      ps.foldl step adj u = adj u ++ (ps.map (contrib u)).flatten
  | [], adj, u => by simp
  | p :: ps, adj, u => by
    rw [List.foldl_cons, foldl_step_apply hstep ps (step adj p) u]
    simp [hstep adj p u]

theorem get_adj_list_adjacency_apply (umis : List Barcode) (counts : Barcode → Nat)
    (threshold : Nat) (u : Barcode) :
    get_adj_list_adjacency umis counts threshold u =
      ((pairs umis).map (adjacencyContrib threshold u)).flatten := by
  unfold get_adj_list_adjacency
  rw [foldl_step_apply (adjacencyStep_apply threshold)]
  simp

theorem get_adj_list_directional_apply (umis : List Barcode) (counts : Barcode → Nat)
    (threshold : Nat) (u : Barcode) :
    get_adj_list_directional umis counts threshold u =
      ((pairs umis).map (directionalContrib counts threshold u)).flatten := by
  unfold get_adj_list_directional
  rw [foldl_step_apply (directionalStep_apply counts threshold)]
  simp

theorem mem_of_mem_pairs : ∀ {l : List Barcode} {p : Barcode × Barcode},
    p ∈ pairs l → p.1 ∈ l ∧ p.2 ∈ l := by
  intro l
  induction l with
  | nil => intro p hp; simp [pairs] at hp
  | cons x rest ih =>
    intro p hp
    rw [pairs, List.mem_append] at hp
    rcases hp with hp | hp
    · obtain ⟨y, hy, rfl⟩ := List.mem_map.mp hp
      exact ⟨List.mem_cons_self _ _, List.mem_cons_of_mem _ hy⟩
    · exact ⟨List.mem_cons_of_mem _ (ih hp).1, List.mem_cons_of_mem _ (ih hp).2⟩

theorem ne_of_mem_pairs : ∀ {l : List Barcode}, l.Nodup →
    ∀ {p : Barcode × Barcode}, p ∈ pairs l → p.1 ≠ p.2 := by
  intro l
  induction l with
  | nil => intro _ p hp; simp [pairs] at hp
  | cons x rest ih =>
    intro hnd p hp
    rw [pairs, List.mem_append] at hp
    rcases hp with hp | hp
    · obtain ⟨y, hy, rfl⟩ := List.mem_map.mp hp
      intro h
      apply (List.nodup_cons.mp hnd).1
      rw [show x = y from h]
      exact hy
    · exact ih (List.nodup_cons.mp hnd).2 hp

theorem pairs_or : ∀ {l : List Barcode} {a b : Barcode},
    a ∈ l → b ∈ l → a ≠ b → (a, b) ∈ pairs l ∨ (b, a) ∈ pairs l := by
  intro l
  induction l with
  | nil => intro a b ha; simp at ha
  | cons x rest ih =>
    intro a b ha hb hne
    rw [pairs]
    by_cases hax : a = x
    · have hbr : b ∈ rest := by
        rcases List.mem_cons.mp hb with h | h
        · exact absurd (hax.trans h.symm) hne
        · exact h
      exact Or.inl (List.mem_append_left _ (List.mem_map.mpr ⟨b, hbr, by rw [hax]⟩))
    · by_cases hbx : b = x
      · have har : a ∈ rest := (List.mem_cons.mp ha).resolve_left hax
        exact Or.inr (List.mem_append_left _ (List.mem_map.mpr ⟨a, har, by rw [hbx]⟩))
      · have har : a ∈ rest := (List.mem_cons.mp ha).resolve_left hax
        have hbr : b ∈ rest := (List.mem_cons.mp hb).resolve_left hbx
        rcases ih har hbr hne with h | h
        · exact Or.inl (List.mem_append_right _ h)
        · exact Or.inr (List.mem_append_right _ h)

theorem edit_distance_comm : ∀ a b : Barcode, edit_distance a b = edit_distance b a
  | [], b => by cases b <;> simp [edit_distance]
  | x :: a, [] => by simp [edit_distance]
  | x :: a, y :: b => by
    have ih := edit_distance_comm a b
    unfold edit_distance at ih ⊢
    simp only [List.zip_cons_cons, List.countP_cons, ih]
    congr 1
    by_cases h : x = y
    · simp [h]
    · simp [h, Ne.symm h]

theorem insertDesc_perm (counts : Barcode → Nat) (x : Barcode) :
    ∀ l : List Barcode, (insertDesc counts x l).Perm (x :: l)
  | [] => List.Perm.refl _
  | y :: ys => by
    unfold insertDesc
    by_cases h : counts y < counts x
    · simp [h]
    · simp only [h, if_false]
      exact ((insertDesc_perm counts x ys).cons y).trans (List.Perm.swap x y ys)

theorem sortByCountDesc_perm (counts : Barcode → Nat) (l : List Barcode) :
    (sortByCountDesc counts l).Perm l := by
  suffices h : ∀ (l acc : List Barcode),
      (l.foldl (fun acc x => insertDesc counts x acc) acc).Perm (acc ++ l) by
    simpa using h l []
  intro l
  induction l with
  | nil => intro acc; simp
  | cons x rest ih =>
    intro acc
    rw [List.foldl_cons]
    refine (ih (insertDesc counts x acc)).trans ?_
    have h1 : (insertDesc counts x acc ++ rest).Perm ((x :: acc) ++ rest) :=
      (insertDesc_perm counts x acc).append_right rest
    exact h1.trans List.perm_middle.symm

theorem reaches_mem (adj : Barcode → List Barcode) (U : Finset Barcode)
    (hadjU : ∀ u ∈ U, ∀ v ∈ adj u, v ∈ U) {a b : Barcode} (ha : a ∈ U)
    (h : Reaches adj a b) : b ∈ U := by
  induction h with
  | refl => exact ha
  | tail _ hedge ih => exact hadjU _ ih _ hedge

theorem bfsLoop_sound (adj : Barcode → List Barcode) (start : Barcode) :
    ∀ (fuel : Nat) (found : Finset Barcode) (queue : List Barcode)
      (searched : Finset Barcode),
      (∀ x ∈ found, Reaches adj start x) → (∀ x ∈ queue, x ∈ found) →
      ∀ b ∈ bfsLoop adj fuel found queue searched, Reaches adj start b
  | 0, found, _, _, hf, _, b, hb => hf b hb
  | _ + 1, found, [], _, hf, _, b, hb => hf b hb
  | fuel + 1, found, n :: rest, searched, hf, hq, b, hb => by
    rw [bfsLoop] at hb
    refine bfsLoop_sound adj start fuel _ _ _ ?_ ?_ b hb
    · intro x hx
      rcases Finset.mem_union.mp hx with hx | hx
      · exact hf x hx
      · exact (hf n (hq n (List.mem_cons_self _ _))).tail
          (show edgeRel adj n x from List.mem_toFinset.mp hx)
    · intro x hx
      rcases List.mem_append.mp (List.mem_of_mem_filter hx) with hx | hx
      · exact Finset.mem_union_left _ (hq x hx)
      · exact Finset.mem_union_right _ (List.mem_toFinset.mpr hx)

theorem bfsLoop_main (adj : Barcode → List Barcode) (U : Finset Barcode)
    (hadjU : ∀ u ∈ U, ∀ v ∈ adj u, v ∈ U) :
    ∀ (fuel : Nat) (found : Finset Barcode) (queue : List Barcode)
      (searched : Finset Barcode),
      (∀ q ∈ queue, q ∈ found) →
      (∀ f ∈ found, f ∈ searched ∨ f ∈ queue) →
      (∀ s ∈ searched, ∀ v ∈ adj s, v ∈ found) →
      (∀ q ∈ queue, q ∉ searched) →
      (∀ f ∈ found, f ∈ U) → (∀ s ∈ searched, s ∈ U) →
      U.card - searched.card < fuel →
      (∀ f ∈ found, f ∈ bfsLoop adj fuel found queue searched) ∧
      (∀ x ∈ bfsLoop adj fuel found queue searched, ∀ v ∈ adj x,
        v ∈ bfsLoop adj fuel found queue searched)
  | 0, found, queue, searched, _, _, _, _, _, _, hfuel => absurd hfuel (by omega)
  | fuel + 1, found, [], searched, _, hFS, hSadj, _, _, _, _ => by
    rw [bfsLoop]
    refine ⟨fun f hf => hf, fun x hx v hv => ?_⟩
    rcases hFS x hx with hs | hs
    · exact hSadj x hs v hv
    · simp at hs
  | fuel + 1, found, n :: rest, searched, hQF, hFS, hSadj, hQS, hFU, hSU, hfuel => by
    rw [bfsLoop]
    have hnF : n ∈ found := hQF n (List.mem_cons_self _ _)
    have hnU : n ∈ U := hFU n hnF
    have hnS : n ∉ searched := hQS n (List.mem_cons_self _ _)
    have hsub : insert n searched ⊆ U := by
      intro s hs
      rcases Finset.mem_insert.mp hs with rfl | hs
      · exact hnU
      · exact hSU s hs
    have hcard : (insert n searched).card = searched.card + 1 :=
      Finset.card_insert_of_not_mem hnS
    have := bfsLoop_main adj U hadjU fuel (found ∪ (adj n).toFinset)
      (((n :: rest) ++ adj n).filter (fun x => decide (x ∉ insert n searched)))
      (insert n searched)
      (by
        intro q hq
        rcases List.mem_append.mp (List.mem_of_mem_filter hq) with h | h
        · exact Finset.mem_union_left _ (hQF q h)
        · exact Finset.mem_union_right _ (List.mem_toFinset.mpr h))
      (by
        intro f hf
        by_cases hfs : f ∈ insert n searched
        · exact Or.inl hfs
        · refine Or.inr (List.mem_filter.mpr ⟨?_, by simpa using hfs⟩)
          rcases Finset.mem_union.mp hf with hf | hf
          · rcases hFS f hf with h | h
            · exact absurd (Finset.mem_insert_of_mem h) hfs
            · exact List.mem_append_left _ h
          · exact List.mem_append_right _ (List.mem_toFinset.mp hf))
      (by
        intro s hs v hv
        rcases Finset.mem_insert.mp hs with rfl | hs
        · exact Finset.mem_union_right _ (List.mem_toFinset.mpr hv)
        · exact Finset.mem_union_left _ (hSadj s hs v hv))
      (by
        intro q hq
        have := (List.mem_filter.mp hq).2
        simpa using this)
      (by
        intro f hf
        rcases Finset.mem_union.mp hf with hf | hf
        · exact hFU f hf
        · exact hadjU n hnU f (List.mem_toFinset.mp hf))
      (fun s hs => hsub hs)
      (by
        have hle : (insert n searched).card ≤ U.card := Finset.card_le_card hsub
        omega)
    refine ⟨fun f hf => this.1 f (Finset.mem_union_left _ hf), this.2⟩

/-- The result of `breadth_first_search node adj_list` is exactly the set of
nodes reachable from `node`, provided the adjacency values stay inside a
finite universe `U` and the fuel exceeds `U.card`. -/
theorem breadth_first_search_spec (adj : Barcode → List Barcode)
    (U : Finset Barcode) (hadjU : ∀ u ∈ U, ∀ v ∈ adj u, v ∈ U)
    (node : Barcode) (hnode : node ∈ U) (fuel : Nat) (hfuel : U.card < fuel) :
    ∀ b, b ∈ breadth_first_search node adj fuel ↔ Reaches adj node b := by
  intro b
  constructor
  · intro hb
    refine bfsLoop_sound adj node fuel {node} [node] ∅ ?_ ?_ b hb
    · intro x hx
      rw [Finset.mem_singleton.mp hx]
      exact Relation.ReflTransGen.refl
    · intro x hx
      simp only [List.mem_singleton] at hx
      simp [hx]
  · intro hreach
    have hmain := bfsLoop_main adj U hadjU fuel {node} [node] ∅
      (by intro q hq; simp only [List.mem_singleton] at hq; simp [hq])
      (by intro f hf; exact Or.inr (by simpa using Finset.mem_singleton.mp hf))
      (by intro s hs; simp at hs)
      (by intro q _; simp)
      (by intro f hf; rw [Finset.mem_singleton.mp hf]; exact hnode)
      (by intro s hs; simp at hs)
      (by simpa using hfuel)
    have hstart : node ∈ breadth_first_search node adj fuel :=
      hmain.1 node (Finset.mem_singleton_self node)
    induction hreach with
    | refl => exact hstart
    | tail _ hedge ih => exact hmain.2 _ ih _ hedge

theorem reaches_mono {adj1 adj2 : Barcode → List Barcode}
    (hsub : ∀ u v, v ∈ adj1 u → v ∈ adj2 u) {a b : Barcode}
    (h : Reaches adj1 a b) : Reaches adj2 a b :=
  Relation.ReflTransGen.mono (fun x y hxy => hsub x y hxy) h

theorem ccLoop_chainSpec (adj : Barcode → List Barcode) (U : Finset Barcode)
    (hadjU : ∀ u ∈ U, ∀ v ∈ adj u, v ∈ U) (fuel : Nat) (hfuel : U.card < fuel) :
    ∀ (order : List Barcode) (found : Finset Barcode),
      (∀ u ∈ order, u ∈ U) → ChainSpec adj found (ccLoop adj fuel order found)
  | [], found, _ => by rw [ccLoop]; trivial
  | n :: rest, found, horder => by
    rw [ccLoop]
    by_cases h : n ∈ found
    · rw [if_pos h]
      exact ccLoop_chainSpec adj U hadjU fuel hfuel rest found
        (fun u hu => horder u (List.mem_cons_of_mem _ hu))
    · rw [if_neg h]
      refine ⟨⟨n, h, breadth_first_search_spec adj U hadjU n
        (horder n (List.mem_cons_self _ _)) fuel hfuel⟩, ?_⟩
      exact ccLoop_chainSpec adj U hadjU fuel hfuel rest _
        (fun u hu => horder u (List.mem_cons_of_mem _ hu))

theorem ccLoop_cover (adj : Barcode → List Barcode) (U : Finset Barcode)
    (hadjU : ∀ u ∈ U, ∀ v ∈ adj u, v ∈ U) (fuel : Nat) (hfuel : U.card < fuel) :
    ∀ (order : List Barcode) (found : Finset Barcode),
      (∀ u ∈ order, u ∈ U) →
      ∀ u ∈ order, u ∈ found ∨ ∃ c ∈ ccLoop adj fuel order found, u ∈ c
  | [], _, _, u, hu => by simp at hu
  | n :: rest, found, horder, u, hu => by
    rw [ccLoop]
    by_cases h : n ∈ found
    · rw [if_pos h]
      rcases List.mem_cons.mp hu with rfl | hu
      · exact Or.inl h
      · exact ccLoop_cover adj U hadjU fuel hfuel rest found
          (fun v hv => horder v (List.mem_cons_of_mem _ hv)) u hu
    · rw [if_neg h]
      have hniff := breadth_first_search_spec adj U hadjU n
        (horder n (List.mem_cons_self _ _)) fuel hfuel
      rcases List.mem_cons.mp hu with rfl | hu
      · exact Or.inr ⟨_, List.mem_cons_self _ _, (hniff u).mpr Relation.ReflTransGen.refl⟩
      · rcases ccLoop_cover adj U hadjU fuel hfuel rest
          (found ∪ breadth_first_search n adj fuel)
          (fun v hv => horder v (List.mem_cons_of_mem _ hv)) u hu with hf | ⟨c, hc, huc⟩
        · rcases Finset.mem_union.mp hf with hf | hf
          · exact Or.inl hf
          · exact Or.inr ⟨_, List.mem_cons_self _ _, hf⟩
        · exact Or.inr ⟨c, List.mem_cons_of_mem _ hc, huc⟩

theorem ccLoop_subsetU (adj : Barcode → List Barcode) (U : Finset Barcode)
    (hadjU : ∀ u ∈ U, ∀ v ∈ adj u, v ∈ U) (fuel : Nat) (hfuel : U.card < fuel) :
    ∀ (order : List Barcode) (found : Finset Barcode),
      (∀ u ∈ order, u ∈ U) →
      ∀ c ∈ ccLoop adj fuel order found, ∀ x ∈ c, x ∈ U
  | [], _, _, c, hc => by rw [ccLoop] at hc; simp at hc
  | n :: rest, found, horder, c, hc => by
    rw [ccLoop] at hc
    by_cases h : n ∈ found
    · rw [if_pos h] at hc
      exact ccLoop_subsetU adj U hadjU fuel hfuel rest found
        (fun v hv => horder v (List.mem_cons_of_mem _ hv)) c hc
    · rw [if_neg h] at hc
      have hnU : n ∈ U := horder n (List.mem_cons_self _ _)
      have hniff := breadth_first_search_spec adj U hadjU n hnU fuel hfuel
      rcases List.mem_cons.mp hc with rfl | hc
      · exact fun x hx => reaches_mem adj U hadjU hnU ((hniff x).mp hx)
      · exact ccLoop_subsetU adj U hadjU fuel hfuel rest _
          (fun v hv => horder v (List.mem_cons_of_mem _ hv)) c hc

/-- Greedy component counting is antitone in the edge set: with the same node
order, a larger adjacency structure seeds at most as many searches. -/
theorem ccLoop_length_mono (adj1 adj2 : Barcode → List Barcode) (U : Finset Barcode)
    (hadjU1 : ∀ u ∈ U, ∀ v ∈ adj1 u, v ∈ U)
    (hadjU2 : ∀ u ∈ U, ∀ v ∈ adj2 u, v ∈ U)
    (hsub : ∀ u v, v ∈ adj1 u → v ∈ adj2 u)
    (fuel1 fuel2 : Nat) (hfuel1 : U.card < fuel1) (hfuel2 : U.card < fuel2) :
    ∀ (order : List Barcode) (f1 f2 : Finset Barcode),
      (∀ u ∈ order, u ∈ U) → f1 ⊆ f2 →
      (∀ x ∈ f2, ∀ v ∈ adj2 x, v ∈ f2) →
      (ccLoop adj2 fuel2 order f2).length ≤ (ccLoop adj1 fuel1 order f1).length
  | [], f1, f2, _, _, _ => by rw [ccLoop, ccLoop]
  | n :: rest, f1, f2, horder, hf12, hf2c => by
    rw [ccLoop, ccLoop]
    have horder' : ∀ u ∈ rest, u ∈ U := fun v hv => horder v (List.mem_cons_of_mem _ hv)
    have hnU : n ∈ U := horder n (List.mem_cons_self _ _)
    have h1iff := breadth_first_search_spec adj1 U hadjU1 n hnU fuel1 hfuel1
    have h2iff := breadth_first_search_spec adj2 U hadjU2 n hnU fuel2 hfuel2
    by_cases h1 : n ∈ f1
    · rw [if_pos h1, if_pos (hf12 h1)]
      exact ccLoop_length_mono adj1 adj2 U hadjU1 hadjU2 hsub fuel1 fuel2
        hfuel1 hfuel2 rest f1 f2 horder' hf12 hf2c
    · rw [if_neg h1]
      by_cases h2 : n ∈ f2
      · rw [if_pos h2]
        refine le_trans (ccLoop_length_mono adj1 adj2 U hadjU1 hadjU2 hsub fuel1 fuel2
          hfuel1 hfuel2 rest _ f2 horder' ?_ hf2c) (Nat.le_succ _)
        intro x hx
        rcases Finset.mem_union.mp hx with hx | hx
        · exact hf12 hx
        · exact reaches_mem adj2 f2 hf2c h2 (reaches_mono hsub ((h1iff x).mp hx))
      · rw [if_neg h2]
        simp only [List.length_cons, Nat.succ_le_succ_iff]
        refine ccLoop_length_mono adj1 adj2 U hadjU1 hadjU2 hsub fuel1 fuel2
          hfuel1 hfuel2 rest _ _ horder' ?_ ?_
        · intro x hx
          rcases Finset.mem_union.mp hx with hx | hx
          · exact Finset.mem_union_left _ (hf12 hx)
          · exact Finset.mem_union_right _
              ((h2iff x).mpr (reaches_mono hsub ((h1iff x).mp hx)))
        · intro x hx v hv
          rcases Finset.mem_union.mp hx with hx | hx
          · exact Finset.mem_union_left _ (hf2c x hx v hv)
          · exact Finset.mem_union_right _
              ((h2iff v).mpr (((h2iff x).mp hx).tail (show edgeRel adj2 x v from hv)))

theorem mem_adjacency_iff (umis : List Barcode) (counts : Barcode → Nat)
    (threshold : Nat) (hnd : umis.Nodup) (u v : Barcode) :
    v ∈ get_adj_list_adjacency umis counts threshold u ↔
      (u ∈ umis ∧ v ∈ umis ∧ u ≠ v ∧ edit_distance u v ≤ threshold) := by
  rw [get_adj_list_adjacency_apply]
  simp only [List.mem_flatten, List.mem_map]
  constructor
  · rintro ⟨l, ⟨p, hp, rfl⟩, hv⟩
    unfold adjacencyContrib at hv
    by_cases hd : edit_distance p.1 p.2 ≤ threshold
    · rw [if_pos hd] at hv
      have hmem := mem_of_mem_pairs hp
      have hne := ne_of_mem_pairs hnd hp
      rcases List.mem_append.mp hv with hv | hv
      · by_cases h1 : u = p.1
        · rw [if_pos h1] at hv
          rw [List.mem_singleton.mp hv, h1]
          exact ⟨hmem.1, hmem.2, hne, hd⟩
        · rw [if_neg h1] at hv; simp at hv
      · by_cases h2 : u = p.2
        · rw [if_pos h2] at hv
          rw [List.mem_singleton.mp hv, h2]
          refine ⟨hmem.2, hmem.1, hne.symm, ?_⟩
          rw [edit_distance_comm]; exact hd
        · rw [if_neg h2] at hv; simp at hv
    · rw [if_neg hd] at hv; simp at hv
  · rintro ⟨hu, hv, hne, hd⟩
    rcases pairs_or hu hv hne with hp | hp
    · exact ⟨_, ⟨(u, v), hp, rfl⟩, by simp [adjacencyContrib, hd]⟩
    · refine ⟨_, ⟨(v, u), hp, rfl⟩, ?_⟩
      have hd' : edit_distance v u ≤ threshold := by rw [edit_distance_comm]; exact hd
      simp [adjacencyContrib, hd']

theorem mem_directional_iff (umis : List Barcode) (counts : Barcode → Nat)
    (threshold : Nat) (hnd : umis.Nodup) (u v : Barcode) :
    v ∈ get_adj_list_directional umis counts threshold u ↔
      (u ∈ umis ∧ v ∈ umis ∧ u ≠ v ∧ edit_distance u v ≤ threshold ∧
        dirTest counts u v) := by
  rw [get_adj_list_directional_apply]
  simp only [List.mem_flatten, List.mem_map]
  constructor
  · rintro ⟨l, ⟨p, hp, rfl⟩, hv⟩
    unfold directionalContrib at hv
    by_cases hd : edit_distance p.1 p.2 ≤ threshold
    · rw [if_pos hd] at hv
      have hmem := mem_of_mem_pairs hp
      have hne := ne_of_mem_pairs hnd hp
      rcases List.mem_append.mp hv with hv | hv
      · by_cases h1 : u = p.1 ∧ dirTest counts p.1 p.2
        · rw [if_pos h1] at hv
          rw [List.mem_singleton.mp hv, h1.1]
          exact ⟨hmem.1, hmem.2, hne, hd, h1.2⟩
        · rw [if_neg h1] at hv; simp at hv
      · by_cases h2 : u = p.2 ∧ dirTest counts p.2 p.1
        · rw [if_pos h2] at hv
          rw [List.mem_singleton.mp hv, h2.1]
          refine ⟨hmem.2, hmem.1, hne.symm, ?_, h2.2⟩
          rw [edit_distance_comm]; exact hd
        · rw [if_neg h2] at hv; simp at hv
    · rw [if_neg hd] at hv; simp at hv
  · rintro ⟨hu, hv, hne, hd, htest⟩
    rcases pairs_or hu hv hne with hp | hp
    · exact ⟨_, ⟨(u, v), hp, rfl⟩, by simp [directionalContrib, hd, htest]⟩
    · refine ⟨_, ⟨(v, u), hp, rfl⟩, ?_⟩
      have hd' : edit_distance v u ≤ threshold := by rw [edit_distance_comm]; exact hd
      simp [directionalContrib, hd', htest]

theorem adjacency_symm (umis : List Barcode) (counts : Barcode → Nat)
    (threshold : Nat) (hnd : umis.Nodup) {u v : Barcode}
    (h : v ∈ get_adj_list_adjacency umis counts threshold u) :
    u ∈ get_adj_list_adjacency umis counts threshold v := by
  rw [mem_adjacency_iff umis counts threshold hnd] at h ⊢
  refine ⟨h.2.1, h.1, h.2.2.1.symm, ?_⟩
  rw [edit_distance_comm]; exact h.2.2.2

theorem adjacency_closed (umis : List Barcode) (counts : Barcode → Nat)
    (threshold : Nat) (hnd : umis.Nodup) {u v : Barcode}
    (h : v ∈ get_adj_list_adjacency umis counts threshold u) : v ∈ umis :=
  ((mem_adjacency_iff umis counts threshold hnd u v).mp h).2.1

theorem adjacency_irrefl (umis : List Barcode) (counts : Barcode → Nat)
    (threshold : Nat) (hnd : umis.Nodup) (u : Barcode) :
    u ∉ get_adj_list_adjacency umis counts threshold u := by
  intro h
  exact ((mem_adjacency_iff umis counts threshold hnd u u).mp h).2.2.1 rfl

theorem directional_closed (umis : List Barcode) (counts : Barcode → Nat)
    (threshold : Nat) (hnd : umis.Nodup) {u v : Barcode}
    (h : v ∈ get_adj_list_directional umis counts threshold u) : v ∈ umis :=
  ((mem_directional_iff umis counts threshold hnd u v).mp h).2.1

theorem adjacency_mono (umis : List Barcode) (counts : Barcode → Nat)
    {t1 t2 : Nat} (h12 : t1 ≤ t2) (hnd : umis.Nodup) (u v : Barcode)
    (h : v ∈ get_adj_list_adjacency umis counts t1 u) :
    v ∈ get_adj_list_adjacency umis counts t2 u := by
  rw [mem_adjacency_iff umis counts t1 hnd] at h
  rw [mem_adjacency_iff umis counts t2 hnd]
  exact ⟨h.1, h.2.1, h.2.2.1, le_trans h.2.2.2 h12⟩

theorem directional_mono (umis : List Barcode) (counts : Barcode → Nat)
    {t1 t2 : Nat} (h12 : t1 ≤ t2) (hnd : umis.Nodup) (u v : Barcode)
    (h : v ∈ get_adj_list_directional umis counts t1 u) :
    v ∈ get_adj_list_directional umis counts t2 u := by
  rw [mem_directional_iff umis counts t1 hnd] at h
  rw [mem_directional_iff umis counts t2 hnd]
  exact ⟨h.1, h.2.1, h.2.2.1, le_trans h.2.2.2.1 h12, h.2.2.2.2⟩

theorem adjacencyContrib_length_mono {t1 t2 : Nat} (h12 : t1 ≤ t2)
    (u : Barcode) (p : Barcode × Barcode) :
    (adjacencyContrib t1 u p).length ≤ (adjacencyContrib t2 u p).length := by
  unfold adjacencyContrib
  by_cases hd : edit_distance p.1 p.2 ≤ t1
  · rw [if_pos hd, if_pos (le_trans hd h12)]
  · rw [if_neg hd]; simp

theorem adjacency_list_length_mono (umis : List Barcode) (counts : Barcode → Nat)
    {t1 t2 : Nat} (h12 : t1 ≤ t2) (u : Barcode) :
    (get_adj_list_adjacency umis counts t1 u).length ≤
      (get_adj_list_adjacency umis counts t2 u).length := by
  rw [get_adj_list_adjacency_apply, get_adj_list_adjacency_apply,
    List.length_flatten, List.length_flatten, List.map_map, List.map_map]
  exact List.sum_le_sum (fun p _ => adjacencyContrib_length_mono h12 u p)

theorem edgeCount_adjacency_mono (umis : List Barcode) (counts : Barcode → Nat)
    {t1 t2 : Nat} (h12 : t1 ≤ t2) :
    edgeCount umis (get_adj_list_adjacency umis counts t1) ≤
      edgeCount umis (get_adj_list_adjacency umis counts t2) := by
  unfold edgeCount
  exact List.sum_le_sum (fun u _ => adjacency_list_length_mono umis counts h12 u)

theorem le_foldl_max : ∀ (l : List Nat) (a : Nat), a ≤ l.foldl Nat.max a
  | [], a => le_refl a
  | x :: xs, a => le_trans (Nat.le_max_left a x) (le_foldl_max xs (Nat.max a x))

theorem mem_le_foldl_max : ∀ (l : List Nat) (a : Nat), ∀ x ∈ l, x ≤ l.foldl Nat.max a
  | x :: xs, a, y, hy => by
    rcases List.mem_cons.mp hy with rfl | hy
    · exact le_trans (Nat.le_max_right a y) (le_foldl_max xs (Nat.max a y))
    · exact mem_le_foldl_max xs (Nat.max a x) y hy

theorem foldl_min_le : ∀ (l : List Nat) (a : Nat), l.foldl Nat.min a ≤ a
  | [], a => le_refl a
  | x :: xs, a => le_trans (foldl_min_le xs (Nat.min a x)) (Nat.min_le_left a x)

theorem foldl_min_le_mem : ∀ (l : List Nat) (a : Nat), ∀ x ∈ l, l.foldl Nat.min a ≤ x
  | x :: xs, a, y, hy => by
    rcases List.mem_cons.mp hy with rfl | hy
    · exact le_trans (foldl_min_le xs (Nat.min a y)) (Nat.min_le_right a y)
    · exact foldl_min_le_mem xs (Nat.min a x) y hy

theorem foldl_max_const : ∀ (l : List Nat) (a : Nat), (∀ x ∈ l, x = a) → l.foldl Nat.max a = a
  | [], _, _ => rfl
  | x :: xs, a, h => by
    rw [List.foldl_cons, h x (List.mem_cons_self _ _),
      show Nat.max a a = a by simp [Nat.max]]
    exact foldl_max_const xs a (fun y hy => h y (List.mem_cons_of_mem _ hy))

theorem foldl_min_const : ∀ (l : List Nat) (a : Nat), (∀ x ∈ l, x = a) → l.foldl Nat.min a = a
  | [], _, _ => rfl
  | x :: xs, a, h => by
    rw [List.foldl_cons, h x (List.mem_cons_self _ _),
      show Nat.min a a = a by simp [Nat.min]]
    exact foldl_min_const xs a (fun y hy => h y (List.mem_cons_of_mem _ hy))

theorem lengthCheck_ok_iff (u : Barcode) (rest : List Barcode) :
    lengthCheck (u :: rest) = .ok () ↔ ∀ x ∈ u :: rest, x.length = u.length := by
  simp only [lengthCheck]
  constructor
  · intro h x hx
    by_cases hc : (rest.map List.length).foldl Nat.max u.length =
        (rest.map List.length).foldl Nat.min u.length
    · rcases List.mem_cons.mp hx with rfl | hx
      · rfl
      · have h1 : x.length ≤ (rest.map List.length).foldl Nat.max u.length :=
          mem_le_foldl_max _ _ _ (List.mem_map.mpr ⟨x, hx, rfl⟩)
        have h2 : (rest.map List.length).foldl Nat.min u.length ≤ x.length :=
          foldl_min_le_mem _ _ _ (List.mem_map.mpr ⟨x, hx, rfl⟩)
        have h3 : u.length ≤ (rest.map List.length).foldl Nat.max u.length :=
          le_foldl_max _ _
        have h4 : (rest.map List.length).foldl Nat.min u.length ≤ u.length :=
          foldl_min_le _ _
        omega
    · rw [if_neg hc] at h
      exact absurd h (by simp)
  · intro h
    have hall : ∀ x ∈ rest.map List.length, x = u.length := by
      intro x hx
      obtain ⟨y, hy, rfl⟩ := List.mem_map.mp hx
      exact h y (List.mem_cons_of_mem _ hy)
    rw [foldl_max_const _ _ hall, foldl_min_const _ _ hall, if_pos rfl]

theorem lengthCheck_cases (umis : List Barcode) :
    lengthCheck umis = .ok () ∨ lengthCheck umis = .error .emptyInputMax ∨
      lengthCheck umis = .error .inconsistentBarcodeLength := by
  match umis with
  | [] => exact Or.inr (Or.inl rfl)
  | u :: rest =>
    simp only [lengthCheck]
    by_cases hc : (rest.map List.length).foldl Nat.max u.length =
        (rest.map List.length).foldl Nat.min u.length
    · exact Or.inl (by rw [if_pos hc])
    · exact Or.inr (Or.inr (by rw [if_neg hc]))

theorem runStrategy_not_lengthError (m : ClusterMethod) (umis : List Barcode)
    (counts : Barcode → Nat) (threshold : Nat) :
    runStrategy m umis counts threshold ≠ .error .inconsistentBarcodeLength := by
  cases m <;> unfold runStrategy <;> try simp
  rcases h : group_adjacency (get_adj_list_adjacency umis counts threshold) counts
    (clustersToLists umis
      (get_connected_components_adjacency umis
        (get_adj_list_adjacency umis counts threshold) counts)) with _ | gs <;>
    simp [h]

/-- Claim C3 (confirmed): for every strategy and non-empty input, the call
fails with the length-inconsistency error (the assert at the top of
`UMIClusterer.__call__`, before any graph work) exactly when the barcodes do
not all share one length. -/
theorem C3_length_precondition (m : ClusterMethod) (umis : List Barcode)
    (counts : Barcode → Nat) (threshold : Nat) (hne : umis ≠ []) :
    UMIClusterer_call m umis counts threshold = .error .inconsistentBarcodeLength ↔
      ¬ (∀ a ∈ umis, ∀ b ∈ umis, List.length a = List.length b) := by
  obtain ⟨u, rest, rfl⟩ : ∃ u rest, umis = u :: rest := by
    cases umis with
    | nil => exact absurd rfl hne
    | cons u rest => exact ⟨u, rest, rfl⟩
  have hiff : (∀ a ∈ u :: rest, ∀ b ∈ u :: rest, List.length a = List.length b) ↔
      (∀ x ∈ u :: rest, x.length = u.length) := by
    constructor
    · intro h x hx
      exact h x hx u (List.mem_cons_self _ _)
    · intro h a ha b hb
      rw [h a ha, h b hb]
  unfold UMIClusterer_call clusterer_call
  constructor
  · intro h hall
    rw [(lengthCheck_ok_iff u rest).mpr (hiff.mp hall)] at h
    exact runStrategy_not_lengthError m (u :: rest) counts threshold h
  · intro hnall
    rcases lengthCheck_cases (u :: rest) with hc | hc | hc
    · exact absurd (hiff.mpr ((lengthCheck_ok_iff u rest).mp hc)) hnall
    · simp only [lengthCheck] at hc
      by_cases h : (rest.map List.length).foldl Nat.max u.length =
          (rest.map List.length).foldl Nat.min u.length <;> simp [h] at hc
    · rw [hc]

theorem C3_length_precondition_witness :
    ([['A','A','A'], ['A','A','A','A']] : List Barcode) ≠ [] ∧
      (UMIClusterer_call .directional [['A','A','A'], ['A','A','A','A']]
          (fun _ => 1) 1 = .error .inconsistentBarcodeLength ↔
        ¬ (∀ a ∈ ([['A','A','A'], ['A','A','A','A']] : List Barcode),
            ∀ b ∈ ([['A','A','A'], ['A','A','A','A']] : List Barcode),
            List.length a = List.length b)) :=
  ⟨by simp, C3_length_precondition .directional _ (fun _ => 1) 1 (by simp)⟩

/-- Claim C4 (code_bug): the spec defines a zero-barcode call to return an
empty group list, but `max(len_umis)` on the empty length list raises a
`ValueError` for every strategy; the embedded call surfaces exactly that
error. -/
theorem C4_empty_input_raises (m : ClusterMethod) (counts : Barcode → Nat)
    (threshold : Nat) :
    UMIClusterer_call m [] counts threshold = .error .emptyInputMax := rfl

/-- Claim C5 (corrected): constructing with the unknown name "banana" does
not fail; `__init__` matches no branch, leaves the strategy methods unbound,
and the first call fails with an `AttributeError` — not an `UnknownStrategy`
error at construction time. -/
theorem C5_unknown_name_counterexample :
    UMIClusterer_init "banana" = none ∧
      clusterer_call (UMIClusterer_init "banana") [['A']] (fun _ => 1) 1 =
        .error .attributeError ∧
      UMIError.attributeError ≠ UMIError.unknownStrategy :=
  ⟨rfl, rfl, by decide⟩

/-- Claim C5 (amended): construction with a name outside the five recognised
strategies succeeds with no strategy methods bound; every clustering call on
such a clusterer that passes the length precondition fails with an
`AttributeError` at the first method access, so the failure is deferred to
the first call rather than surfaced at construction. -/
theorem C5_unknown_name_deferred (s : String)
    (h1 : s ≠ "adjacency") (h2 : s ≠ "directional") (h3 : s ≠ "cluster")
    (h4 : s ≠ "percentile") (h5 : s ≠ "unique") :
    UMIClusterer_init s = none ∧
      ∀ (umis : List Barcode) (counts : Barcode → Nat) (threshold : Nat),
        umis ≠ [] → (∀ a ∈ umis, ∀ b ∈ umis, List.length a = List.length b) →
        clusterer_call (UMIClusterer_init s) umis counts threshold =
          .error .attributeError := by
  have hinit : UMIClusterer_init s = none := by
    unfold UMIClusterer_init
    rw [if_neg h1, if_neg h2, if_neg h3, if_neg h4, if_neg h5]
  refine ⟨hinit, ?_⟩
  intro umis counts threshold hne hlen
  obtain ⟨u, rest, rfl⟩ : ∃ u rest, umis = u :: rest := by
    cases umis with
    | nil => exact absurd rfl hne
    | cons u rest => exact ⟨u, rest, rfl⟩
  unfold clusterer_call
  rw [(lengthCheck_ok_iff u rest).mpr
    (fun x hx => hlen x hx u (List.mem_cons_self _ _)), hinit]

theorem C5_unknown_name_deferred_witness :
    UMIClusterer_init "banana" = none ∧
      ∀ (umis : List Barcode) (counts : Barcode → Nat) (threshold : Nat),
        umis ≠ [] → (∀ a ∈ umis, ∀ b ∈ umis, List.length a = List.length b) →
        clusterer_call (UMIClusterer_init "banana") umis counts threshold =
          .error .attributeError :=
  C5_unknown_name_deferred "banana" (by decide) (by decide) (by decide)
    (by decide) (by decide)

/-- Claim C6 (confirmed): in the directional builder, for distinct barcodes
`a`, `b` of the input, the edge `a -> b` is present exactly when the distance
is within the threshold and `counts[a] >= 2*counts[b] - 1`; each direction of
a pair is decided by its own count test. -/
theorem C6_directional_edge_rule (umis : List Barcode) (counts : Barcode → Nat)
    (threshold : Nat) (hnd : umis.Nodup) (a b : Barcode)
    (ha : a ∈ umis) (hb : b ∈ umis) (hne : a ≠ b) :
    b ∈ get_adj_list_directional umis counts threshold a ↔
      (edit_distance a b ≤ threshold ∧
        (counts a : Int) ≥ 2 * (counts b : Int) - 1) := by
  rw [mem_directional_iff umis counts threshold hnd a b]
  unfold dirTest
  constructor
  · rintro ⟨_, _, _, hd, ht⟩
    exact ⟨hd, by linarith⟩
  · rintro ⟨hd, ht⟩
    exact ⟨ha, hb, hne, hd, by linarith⟩

theorem C6_directional_edge_rule_witness :
    (['A','A','A','T'] ∈ get_adj_list_directional
        [['A','A','A','A'], ['A','A','A','T']]
        (fun u => if u = ['A','A','A','T'] then 1 else 5) 1 ['A','A','A','A'] ↔
      (edit_distance ['A','A','A','A'] ['A','A','A','T'] ≤ 1 ∧
        ((fun (u : Barcode) => if u = ['A','A','A','T'] then 1 else 5)
            ['A','A','A','A'] : Int) ≥
          2 * ((fun (u : Barcode) => if u = ['A','A','A','T'] then 1 else 5)
            ['A','A','A','T'] : Int) - 1)) :=
  C6_directional_edge_rule _ _ 1 (by decide) _ _ (by decide) (by decide) (by decide)

/-- Claim C8 (confirmed): the concrete directional scenario
`{"AAAA": 5, "AAAT": 1}` at threshold 1 yields the single group
`["AAAA", "AAAT"]` in that order. -/
theorem C8_concrete_directional :
    UMIClusterer_call .directional [['A','A','A','A'], ['A','A','A','T']]
        (fun u => if u = ['A','A','A','T'] then 1 else 5) 1 =
      .ok [[['A','A','A','A'], ['A','A','A','T']]] := rfl

theorem reaches_symm (adj : Barcode → List Barcode)
    (hsymm : ∀ a b, b ∈ adj a → a ∈ adj b) {x y : Barcode}
    (h : Reaches adj x y) : Reaches adj y x := by
  induction h with
  | refl => exact Relation.ReflTransGen.refl
  | tail _ hedge ih =>
    exact Relation.ReflTransGen.head (show edgeRel adj _ _ from hsymm _ _ hedge) ih

theorem chainSpec_symm_disjoint (adj : Barcode → List Barcode)
    (hsymm : ∀ a b, b ∈ adj a → a ∈ adj b) :
    ∀ (comps : List (Finset Barcode)) (found : Finset Barcode),
      (∀ x ∈ found, ∀ y, Reaches adj x y → y ∈ found) →
      ChainSpec adj found comps →
      (∀ c ∈ comps, ∀ x ∈ c, x ∉ found) ∧
        comps.Pairwise (fun c d => ∀ x ∈ c, x ∉ d)
  | [], found, _, _ => ⟨by simp, List.Pairwise.nil⟩
  | c :: rest, found, hfc, hspec => by
    obtain ⟨⟨s, hs, hciff⟩, hrest⟩ := hspec
    have havoid : ∀ x ∈ c, x ∉ found := by
      intro x hx hxf
      exact hs (hfc x hxf s (reaches_symm adj hsymm ((hciff x).mp hx)))
    have hclosed' : ∀ x ∈ found ∪ c, ∀ y, Reaches adj x y → y ∈ found ∪ c := by
      intro x hx y hxy
      rcases Finset.mem_union.mp hx with hx | hx
      · exact Finset.mem_union_left _ (hfc x hx y hxy)
      · exact Finset.mem_union_right _
          ((hciff y).mpr (((hciff x).mp hx).trans hxy))
    obtain ⟨havoid', hpair'⟩ :=
      chainSpec_symm_disjoint adj hsymm rest (found ∪ c) hclosed' hrest
    refine ⟨?_, List.Pairwise.cons ?_ hpair'⟩
    · intro d hd x hx
      rcases List.mem_cons.mp hd with rfl | hd
      · exact havoid x hx
      · intro hxf
        exact havoid' d hd x hx (Finset.mem_union_left _ hxf)
    · intro d hd x hxc hxd
      exact havoid' d hd x hxd (Finset.mem_union_right _ hxc)

/-- Claim C2 (amended): the components returned by the graph-variant
Component Finder always cover the input barcode set and stay inside it; when
the adjacency structure is symmetric (as built by the adjacency/cluster rule)
they are also pairwise disjoint, i.e. a partition.  (The directional rule's
asymmetric structures can produce overlapping components; see the
counterexample.) -/
theorem C2_partition_amended (umis : List Barcode)
    (graph : Barcode → List Barcode) (counts : Barcode → Nat)
    (hclosed : ∀ u v, v ∈ graph u → v ∈ umis) :
    (∀ u ∈ umis, ∃ c ∈ get_connected_components_adjacency umis graph counts, u ∈ c) ∧
      (∀ c ∈ get_connected_components_adjacency umis graph counts, ∀ x ∈ c, x ∈ umis) ∧
      ((∀ a b, b ∈ graph a → a ∈ graph b) →
        (get_connected_components_adjacency umis graph counts).Pairwise
          (fun c d => ∀ x ∈ c, x ∉ d)) := by
  have hadjU : ∀ u ∈ umis.toFinset, ∀ v ∈ graph u, v ∈ umis.toFinset :=
    fun u _ v hv => List.mem_toFinset.mpr (hclosed u v hv)
  have hfuel : umis.toFinset.card < umis.length + 1 :=
    Nat.lt_succ_of_le umis.toFinset_card_le
  have horder : ∀ u ∈ sortByCountDesc counts umis, u ∈ umis.toFinset :=
    fun u hu => List.mem_toFinset.mpr ((sortByCountDesc_perm counts umis).mem_iff.mp hu)
  refine ⟨?_, ?_, ?_⟩
  · intro u hu
    rcases ccLoop_cover graph umis.toFinset hadjU (umis.length + 1) hfuel
        (sortByCountDesc counts umis) ∅ horder u
        ((sortByCountDesc_perm counts umis).mem_iff.mpr hu) with h | h
    · simp at h
    · exact h
  · intro c hc x hx
    exact List.mem_toFinset.mp
      (ccLoop_subsetU graph umis.toFinset hadjU (umis.length + 1) hfuel
        (sortByCountDesc counts umis) ∅ horder c hc x hx)
  · intro hsymm
    exact (chainSpec_symm_disjoint graph hsymm _ ∅ (by simp)
      (ccLoop_chainSpec graph umis.toFinset hadjU (umis.length + 1) hfuel
        (sortByCountDesc counts umis) ∅ horder)).2

theorem C2_partition_amended_witness :
    (∀ u ∈ ([['A','A'], ['A','T']] : List Barcode),
      ∃ c ∈ get_connected_components_adjacency [['A','A'], ['A','T']]
        (get_adj_list_adjacency [['A','A'], ['A','T']] (fun _ => 1) 1)
        (fun _ => 1), u ∈ c) ∧
    (∀ c ∈ get_connected_components_adjacency [['A','A'], ['A','T']]
        (get_adj_list_adjacency [['A','A'], ['A','T']] (fun _ => 1) 1)
        (fun _ => 1), ∀ x ∈ c, x ∈ ([['A','A'], ['A','T']] : List Barcode)) ∧
    ((∀ a b, b ∈ get_adj_list_adjacency [['A','A'], ['A','T']] (fun _ => 1) 1 a →
        a ∈ get_adj_list_adjacency [['A','A'], ['A','T']] (fun _ => 1) 1 b) →
      (get_connected_components_adjacency [['A','A'], ['A','T']]
        (get_adj_list_adjacency [['A','A'], ['A','T']] (fun _ => 1) 1)
        (fun _ => 1)).Pairwise (fun c d => ∀ x ∈ c, x ∉ d)) :=
  C2_partition_amended [['A','A'], ['A','T']]
    (get_adj_list_adjacency [['A','A'], ['A','T']] (fun _ => 1) 1) (fun _ => 1)
    (fun u v hv => adjacency_closed [['A','A'], ['A','T']] (fun _ => 1) 1
      (by decide) hv)

/-- Claim C2 (counterexample): on `{"TT": 6, "AA": 5, "AT": 1}` at threshold
1, the directional structure has edges TT->AT and AA->AT only; the Component
Finder returns the two components {TT, AT} and {AA, AT}, which share AT, so
they do not partition the input. -/
theorem C2_partition_counterexample :
    get_connected_components_adjacency c2umis
        (get_adj_list_directional c2umis c2counts 1) c2counts =
      [{['T','T'], ['A','T']}, {['A','A'], ['A','T']}] ∧
    ¬ (get_connected_components_adjacency c2umis
        (get_adj_list_directional c2umis c2counts 1) c2counts).Pairwise
      (fun c d => ∀ x ∈ c, x ∉ d) := by
  constructor
  · decide
  · decide

/-- Claim C7 (counterexample): a size-1 cluster is short-circuited by
`_get_best_percentile`: with counts `{"AA": 1, "CC": 1000, "GG": 1000}` the
median is 1000, the rule `count > median/100` fails for `"AA"` (1 > 10 is
false), yet the selector returns `["AA"]` unconditionally. -/
theorem C7_percentile_counterexample :
    get_best_percentile [['A','A']] c7keys c7counts = [['A','A']] ∧
      ¬ ((c7counts ['A','A'] : ℚ) > npMedian (c7keys.map c7counts) / 100) := by
  refine ⟨rfl, ?_⟩
  have h : npMedian (c7keys.map c7counts) = 1000 := rfl
  have h2 : c7counts ['A','A'] = 1 := rfl
  rw [h, h2]
  norm_num

/-- Claim C7 (amended): the percentile pipeline returns one singleton group
per retained barcode, where for two or more barcodes the retained ones are
exactly those whose count strictly exceeds `median/100` (median over all
counts supplied for the call), while a single-barcode input short-circuits to
that barcode unconditionally. -/
theorem C7_percentile_rule (umis : List Barcode) (counts : Barcode → Nat)
    (threshold : Nat) (hne : umis ≠ [])
    (hlen : ∀ a ∈ umis, ∀ b ∈ umis, List.length a = List.length b) :
    UMIClusterer_call .percentile umis counts threshold =
      .ok ((if umis.length = 1 then umis
        else umis.filter
          (fun u => decide ((counts u : ℚ) > npMedian (umis.map counts) / 100))).map
        (fun x => [x])) := by
  obtain ⟨u, rest, rfl⟩ : ∃ u rest, umis = u :: rest := by
    cases umis with
    | nil => exact absurd rfl hne
    | cons u rest => exact ⟨u, rest, rfl⟩
  unfold UMIClusterer_call clusterer_call
  rw [(lengthCheck_ok_iff u rest).mpr
    (fun x hx => hlen x hx u (List.mem_cons_self _ _))]
  rfl

theorem C7_percentile_rule_witness :
    UMIClusterer_call .percentile c7keys c7counts 1 =
      .ok ((if c7keys.length = 1 then c7keys
        else c7keys.filter
          (fun u => decide ((c7counts u : ℚ) >
            npMedian (c7keys.map c7counts) / 100))).map
        (fun x => [x])) :=
  C7_percentile_rule c7keys c7counts 1 (by decide) (by decide)

theorem reaches_mem_list (adj : Barcode → List Barcode) (cluster : List Barcode)
    (hclosed : ∀ a ∈ cluster, ∀ b ∈ adj a, b ∈ cluster) {a b : Barcode}
    (ha : a ∈ cluster) (h : Reaches adj a b) : b ∈ cluster := by
  induction h with
  | refl => exact ha
  | tail _ hedge ih => exact hclosed _ ih _ hedge

theorem min_account_total_aux (cluster : List Barcode)
    (adj_list : Barcode → List Barcode) (counts : Barcode → Nat)
    (hnd : cluster.Nodup) (hlen : 2 ≤ cluster.length)
    (hclosed : ∀ a ∈ cluster, ∀ b ∈ adj_list a, b ∈ cluster)
    (hirr : ∀ a ∈ cluster, a ∉ adj_list a)
    (hconn : ∀ a ∈ cluster, ∀ b ∈ cluster, Reaches adj_list a b) :
    ∃ leads, get_best_min_account cluster adj_list counts = some leads ∧
      leads ≠ [] := by
  have hperm := sortByCountDesc_perm counts cluster
  have hlen' : (sortByCountDesc counts cluster).length = cluster.length :=
    hperm.length_eq
  have hnd' : (sortByCountDesc counts cluster).Nodup := hperm.nodup_iff.mpr hnd
  have hne : sortByCountDesc counts cluster ≠ [] := by
    intro h
    rw [h] at hlen'
    simp at hlen'
    omega
  have hsplit := List.dropLast_append_getLast hne
  have hlastmem : (sortByCountDesc counts cluster).getLast hne ∈ cluster :=
    hperm.mem_iff.mp (List.getLast_mem hne)
  have hlastpre : (sortByCountDesc counts cluster).getLast hne ∉
      (sortByCountDesc counts cluster).dropLast := by
    intro hmem
    have := hnd'
    rw [← hsplit] at this
    exact (List.nodup_append.mp this).2.2 hmem (List.mem_singleton_self _)
  have hprelen : (sortByCountDesc counts cluster).dropLast.length =
      cluster.length - 1 := by
    rw [List.length_dropLast, hlen']
  have hprene : (sortByCountDesc counts cluster).dropLast ≠ [] := by
    intro h
    rw [h] at hprelen
    simp at hprelen
    omega
  obtain ⟨b, hb⟩ := List.exists_mem_of_ne_nil _ hprene
  have hbmem : b ∈ cluster := by
    refine hperm.mem_iff.mp ?_
    rw [← hsplit]
    exact List.mem_append_left _ hb
  have hbne : b ≠ (sortByCountDesc counts cluster).getLast hne := by
    intro h
    exact hlastpre (h ▸ hb)
  obtain ⟨c, hbc, hclast⟩ :
      ∃ c, Reaches adj_list b c ∧
        (sortByCountDesc counts cluster).getLast hne ∈ adj_list c := by
    rcases (hconn b hbmem _ hlastmem).cases_tail with h | ⟨c, hbc, hcl⟩
    · exact absurd h.symm hbne
    · exact ⟨c, hbc, hcl⟩
  have hcmem : c ∈ cluster := reaches_mem_list adj_list cluster hclosed hbmem hbc
  have hcne : c ≠ (sortByCountDesc counts cluster).getLast hne := by
    intro h
    exact hirr _ hlastmem (h ▸ hclast)
  have hcpre : c ∈ (sortByCountDesc counts cluster).dropLast := by
    have hcs : c ∈ sortByCountDesc counts cluster := hperm.mem_iff.mpr hcmem
    rw [← hsplit] at hcs
    rcases List.mem_append.mp hcs with h | h
    · exact h
    · exact absurd (List.mem_singleton.mp h) hcne
  have hremove : remove_umis adj_list cluster.toFinset
      (sortByCountDesc counts cluster).dropLast = ∅ := by
    apply Finset.eq_empty_iff_forall_not_mem.mpr
    intro x hx
    rw [remove_umis, Finset.mem_sdiff] at hx
    obtain ⟨hx1, hx2⟩ := hx
    apply hx2
    rw [List.mem_toFinset] at hx1
    rw [List.mem_toFinset, List.mem_append]
    have hxs : x ∈ sortByCountDesc counts cluster := hperm.mem_iff.mpr hx1
    rw [← hsplit] at hxs
    rcases List.mem_append.mp hxs with h | h
    · exact Or.inr h
    · refine Or.inl (List.mem_flatten.mpr ⟨adj_list c, List.mem_map.mpr ⟨c, hcpre, rfl⟩, ?_⟩)
      rw [List.mem_singleton.mp h]
      exact hclast
  have hpred : decide (remove_umis adj_list cluster.toFinset
      ((sortByCountDesc counts cluster).take (cluster.length - 1)) = ∅) = true := by
    rw [List.dropLast_eq_take, hlen'] at hremove
    exact decide_eq_true hremove
  have hmemrange : cluster.length - 2 ∈
      List.range ((sortByCountDesc counts cluster).length - 1) := by
    rw [List.mem_range, hlen']
    omega
  have hidx : cluster.length - 2 + 1 = cluster.length - 1 := by omega
  rcases hfind : (List.range ((sortByCountDesc counts cluster).length - 1)).find?
      (fun i => decide (remove_umis adj_list cluster.toFinset
        ((sortByCountDesc counts cluster).take (i + 1)) = ∅)) with _ | j
  · exfalso
    have := List.find?_eq_none.mp hfind _ hmemrange
    rw [hidx] at this
    exact this hpred
  · refine ⟨(sortByCountDesc counts cluster).take (j + 1), ?_, ?_⟩
    · rw [get_best_min_account, if_neg (by omega), hfind]
      rfl
    · intro h
      have hlt : 0 < ((sortByCountDesc counts cluster).take (j + 1)).length := by
        rw [List.length_take, hlen']
        omega
      rw [h] at hlt
      simp at hlt

/-- Claim C10 (confirmed): on a cluster of size ≥ 2 that is a connected
component of the (loop-free) adjacency structure it is queried against, the
greedy prefix search of `_get_best_min_account` finds a covering prefix no
later than the all-but-last prefix, so it returns a non-empty lead list and
never falls through to `None`. -/
theorem C10_min_account_total (cluster : List Barcode)
    (adj_list : Barcode → List Barcode) (counts : Barcode → Nat)
    (hnd : cluster.Nodup) (hlen : 2 ≤ cluster.length)
    (hclosed : ∀ a ∈ cluster, ∀ b ∈ adj_list a, b ∈ cluster)
    (hirr : ∀ a ∈ cluster, a ∉ adj_list a)
    (hconn : ∀ a ∈ cluster, ∀ b ∈ cluster, Reaches adj_list a b) :
    ∃ leads, get_best_min_account cluster adj_list counts = some leads ∧
      leads ≠ [] :=
  min_account_total_aux cluster adj_list counts hnd hlen hclosed hirr hconn

theorem C10_min_account_total_witness :
    ∃ leads, get_best_min_account [['A'], ['B']] c10adj (fun _ => 1) =
      some leads ∧ leads ≠ [] := by
  refine C10_min_account_total [['A'], ['B']] c10adj (fun _ => 1)
    (by decide) (by decide) (by decide) (by decide) ?_
  intro a ha b hb
  fin_cases ha <;> fin_cases hb
  · exact Relation.ReflTransGen.refl
  · exact Relation.ReflTransGen.single (show (['B'] : Barcode) ∈ c10adj ['A'] by decide)
  · exact Relation.ReflTransGen.single (show (['A'] : Barcode) ∈ c10adj ['B'] by decide)
  · exact Relation.ReflTransGen.refl

theorem group_directional_loop_length (counts : Barcode → Nat) :
    ∀ (clusters : List (List Barcode)) (obs : Finset Barcode),
      (group_directional_loop counts clusters obs).length = clusters.length
  | [], _ => rfl
  | c :: rest, obs => by
    rw [group_directional_loop]
    by_cases h : c.length = 1
    · rw [if_pos h]
      simp [group_directional_loop_length counts rest]
    · rw [if_neg h]
      simp [group_directional_loop_length counts rest]

/-- Retrieve the result of a strategy call that returned `.ok`. -/
theorem call_ok_elim (m : ClusterMethod) (umis : List Barcode)
    (counts : Barcode → Nat) (threshold : Nat) (gs : List (List Barcode))
    (h : UMIClusterer_call m umis counts threshold = .ok gs) :
    runStrategy m umis counts threshold = .ok gs := by
  unfold UMIClusterer_call clusterer_call at h
  rcases lengthCheck_cases umis with hc | hc | hc <;> rw [hc] at h
  · exact h
  · exact absurd h (by simp)
  · exact absurd h (by simp)

theorem components_length_mono_directional (umis : List Barcode)
    (counts : Barcode → Nat) {t1 t2 : Nat} (h12 : t1 ≤ t2) (hnd : umis.Nodup) :
    (get_connected_components_adjacency umis
        (get_adj_list_directional umis counts t2) counts).length ≤
      (get_connected_components_adjacency umis
        (get_adj_list_directional umis counts t1) counts).length := by
  unfold get_connected_components_adjacency
  refine ccLoop_length_mono _ _ umis.toFinset
    (fun u _ v hv => List.mem_toFinset.mpr (directional_closed umis counts t1 hnd hv))
    (fun u _ v hv => List.mem_toFinset.mpr (directional_closed umis counts t2 hnd hv))
    (fun u v hv => directional_mono umis counts h12 hnd u v hv)
    _ _ (Nat.lt_succ_of_le umis.toFinset_card_le)
    (Nat.lt_succ_of_le umis.toFinset_card_le) _ ∅ ∅
    (fun u hu => List.mem_toFinset.mpr
      ((sortByCountDesc_perm counts umis).mem_iff.mp hu))
    (Finset.Subset.refl _) (by simp)

theorem components_length_mono_adjacency (umis : List Barcode)
    (counts : Barcode → Nat) {t1 t2 : Nat} (h12 : t1 ≤ t2) (hnd : umis.Nodup) :
    (get_connected_components_adjacency umis
        (get_adj_list_adjacency umis counts t2) counts).length ≤
      (get_connected_components_adjacency umis
        (get_adj_list_adjacency umis counts t1) counts).length := by
  unfold get_connected_components_adjacency
  refine ccLoop_length_mono _ _ umis.toFinset
    (fun u _ v hv => List.mem_toFinset.mpr (adjacency_closed umis counts t1 hnd hv))
    (fun u _ v hv => List.mem_toFinset.mpr (adjacency_closed umis counts t2 hnd hv))
    (fun u v hv => adjacency_mono umis counts h12 hnd u v hv)
    _ _ (Nat.lt_succ_of_le umis.toFinset_card_le)
    (Nat.lt_succ_of_le umis.toFinset_card_le) _ ∅ ∅
    (fun u hu => List.mem_toFinset.mpr
      ((sortByCountDesc_perm counts umis).mem_iff.mp hu))
    (Finset.Subset.refl _) (by simp)

/-- Claim C9 (amended): raising the threshold never loses an edge in the
adjacency graph builder, and never increases the number of output groups of
the directional and cluster strategies (whose group count equals the
component count).  The adjacency strategy is excluded: its group count can
grow with the threshold (see the counterexample). -/
theorem C9_threshold_monotonicity (umis : List Barcode) (counts : Barcode → Nat)
    (t1 t2 : Nat) (h12 : t1 ≤ t2) (hnd : umis.Nodup) :
    edgeCount umis (get_adj_list_adjacency umis counts t1) ≤
        edgeCount umis (get_adj_list_adjacency umis counts t2) ∧
      (∀ gs1 gs2, UMIClusterer_call .directional umis counts t1 = .ok gs1 →
        UMIClusterer_call .directional umis counts t2 = .ok gs2 →
        gs2.length ≤ gs1.length) ∧
      (∀ gs1 gs2, UMIClusterer_call .cluster umis counts t1 = .ok gs1 →
        UMIClusterer_call .cluster umis counts t2 = .ok gs2 →
        gs2.length ≤ gs1.length) := by
  refine ⟨edgeCount_adjacency_mono umis counts h12, ?_, ?_⟩
  · intro gs1 gs2 h1 h2
    have e1 := call_ok_elim _ _ _ _ _ h1
    have e2 := call_ok_elim _ _ _ _ _ h2
    unfold runStrategy at e1 e2
    have g1 : gs1 = group_directional
        (clustersToLists umis (get_connected_components_adjacency umis
          (get_adj_list_directional umis counts t1) counts)) counts :=
      Except.ok.inj e1.symm
    have g2 : gs2 = group_directional
        (clustersToLists umis (get_connected_components_adjacency umis
          (get_adj_list_directional umis counts t2) counts)) counts :=
      Except.ok.inj e2.symm
    rw [g1, g2]
    unfold group_directional
    rw [group_directional_loop_length, group_directional_loop_length]
    unfold clustersToLists
    rw [List.length_map, List.length_map]
    exact components_length_mono_directional umis counts h12 hnd
  · intro gs1 gs2 h1 h2
    have e1 := call_ok_elim _ _ _ _ _ h1
    have e2 := call_ok_elim _ _ _ _ _ h2
    unfold runStrategy at e1 e2
    have g1 : gs1 = group_cluster
        (clustersToLists umis (get_connected_components_adjacency umis
          (get_adj_list_adjacency umis counts t1) counts)) counts :=
      Except.ok.inj e1.symm
    have g2 : gs2 = group_cluster
        (clustersToLists umis (get_connected_components_adjacency umis
          (get_adj_list_adjacency umis counts t2) counts)) counts :=
      Except.ok.inj e2.symm
    rw [g1, g2]
    unfold group_cluster clustersToLists
    rw [List.length_map, List.length_map, List.length_map, List.length_map]
    exact components_length_mono_adjacency umis counts h12 hnd

theorem C9_threshold_monotonicity_witness :
    edgeCount [['A','A'], ['A','T']]
        (get_adj_list_adjacency [['A','A'], ['A','T']] (fun _ => 1) 0) ≤
      edgeCount [['A','A'], ['A','T']]
        (get_adj_list_adjacency [['A','A'], ['A','T']] (fun _ => 1) 1) ∧
    (∀ gs1 gs2,
      UMIClusterer_call .directional [['A','A'], ['A','T']] (fun _ => 1) 0 = .ok gs1 →
      UMIClusterer_call .directional [['A','A'], ['A','T']] (fun _ => 1) 1 = .ok gs2 →
      gs2.length ≤ gs1.length) ∧
    (∀ gs1 gs2,
      UMIClusterer_call .cluster [['A','A'], ['A','T']] (fun _ => 1) 0 = .ok gs1 →
      UMIClusterer_call .cluster [['A','A'], ['A','T']] (fun _ => 1) 1 = .ok gs2 →
      gs2.length ≤ gs1.length) :=
  C9_threshold_monotonicity [['A','A'], ['A','T']] (fun _ => 1) 0 1
    (by decide) (by decide)

/-- Claim C9 (counterexample): with barcodes
`{TAAA: 100, AAAA: 90, GACC: 10, AACC: 9}` the adjacency strategy returns 2
groups at threshold 1 but 3 groups at threshold 2: the merged component's
count-sorted greedy prefix needs three leads, so increasing the threshold
increased the number of output groups. -/
theorem C9_adjacency_counterexample :
    UMIClusterer_call .adjacency c9umis c9counts 1 =
      .ok [[['T','A','A','A'], ['A','A','A','A']],
           [['G','A','C','C'], ['A','A','C','C']]] ∧
    UMIClusterer_call .adjacency c9umis c9counts 2 =
      .ok [[['T','A','A','A']], [['A','A','A','A'], ['A','A','C','C']],
           [['G','A','C','C']]] ∧
    ([[['T','A','A','A'], ['A','A','A','A']],
      [['G','A','C','C'], ['A','A','C','C']]] : List (List Barcode)).length <
      ([[['T','A','A','A']], [['A','A','A','A'], ['A','A','C','C']],
        [['G','A','C','C']]] : List (List Barcode)).length :=
  ⟨rfl, rfl, by decide⟩

theorem flatten_map_singleton : ∀ l : List Barcode,
    (l.map (fun x => [x])).flatten = l
  | [] => rfl
  | x :: xs => by simp [flatten_map_singleton xs]

theorem group_unique_flatten (umis : List Barcode) :
    (group_unique umis).flatten = umis := by
  unfold group_unique
  by_cases h : umis.length = 1
  · rw [if_pos h]
    simp
  · rw [if_neg h]
    exact flatten_map_singleton umis

theorem dirSweep_mem : ∀ (l : List Barcode) (obs : Finset Barcode) (b : Barcode),
    b ∈ (dirSweep l obs).1 ↔ (b ∈ l ∧ b ∉ obs)
  | [], obs, b => by simp [dirSweep]
  | x :: xs, obs, b => by
    rw [dirSweep]
    by_cases h : x ∈ obs
    · rw [if_pos h]
      rw [dirSweep_mem xs obs b]
      constructor
      · rintro ⟨hb, hbo⟩
        exact ⟨List.mem_cons_of_mem _ hb, hbo⟩
      · rintro ⟨hb, hbo⟩
        rcases List.mem_cons.mp hb with rfl | hb
        · exact absurd h hbo
        · exact ⟨hb, hbo⟩
    · rw [if_neg h]
      simp only [List.mem_cons, dirSweep_mem xs (insert x obs) b, Finset.mem_insert]
      constructor
      · rintro (rfl | ⟨hb, hbo⟩)
        · exact ⟨Or.inl rfl, h⟩
        · exact ⟨Or.inr hb, fun hc => hbo (Or.inr hc)⟩
      · rintro ⟨rfl | hb, hbo⟩
        · exact Or.inl rfl
        · by_cases hbx : b = x
          · exact Or.inl hbx
          · exact Or.inr ⟨hb, fun hc => (hc.elim hbx hbo)⟩

theorem dirSweep_nodup : ∀ (l : List Barcode) (obs : Finset Barcode),
    (dirSweep l obs).1.Nodup
  | [], obs => by simp [dirSweep]
  | x :: xs, obs => by
    rw [dirSweep]
    by_cases h : x ∈ obs
    · rw [if_pos h]
      exact dirSweep_nodup xs obs
    · rw [if_neg h]
      refine List.nodup_cons.mpr ⟨?_, dirSweep_nodup xs (insert x obs)⟩
      intro hx
      exact ((dirSweep_mem xs (insert x obs) x).mp hx).2 (Finset.mem_insert_self _ _)

theorem dirSweep_snd : ∀ (l : List Barcode) (obs : Finset Barcode),
    (dirSweep l obs).2 = obs ∪ l.toFinset
  | [], obs => by simp [dirSweep]
  | x :: xs, obs => by
    rw [dirSweep]
    by_cases h : x ∈ obs
    · rw [if_pos h, dirSweep_snd xs obs]
      ext y
      simp only [Finset.mem_union, List.toFinset_cons, Finset.mem_insert,
        List.mem_toFinset]
      constructor
      · rintro (hy | hy)
        · exact Or.inl hy
        · exact Or.inr (Or.inr hy)
      · rintro (hy | rfl | hy)
        · exact Or.inl hy
        · exact Or.inl h
        · exact Or.inr hy
    · rw [if_neg h]
      simp only
      rw [dirSweep_snd xs (insert x obs)]
      ext y
      simp only [Finset.mem_union, Finset.mem_insert, List.toFinset_cons,
        List.mem_toFinset]
      tauto

theorem sorted_flatten_nodup (counts : Barcode → Nat) (L : List (List Barcode))
    (h : L.flatten.Nodup) : ((L.map (sortByCountDesc counts)).flatten).Nodup := by
  rw [List.nodup_flatten] at h ⊢
  constructor
  · intro l hl
    obtain ⟨cl, hcl, rfl⟩ := List.mem_map.mp hl
    exact ((sortByCountDesc_perm counts cl).nodup_iff).mpr (h.1 cl hcl)
  · rw [List.pairwise_map]
    refine h.2.imp ?_
    intro a b hab x hx1 hx2
    exact hab ((sortByCountDesc_perm counts a).mem_iff.mp hx1)
      ((sortByCountDesc_perm counts b).mem_iff.mp hx2)

theorem sorted_flatten_mem (counts : Barcode → Nat) (L : List (List Barcode))
    (b : Barcode) :
    b ∈ ((L.map (sortByCountDesc counts)).flatten) ↔ b ∈ L.flatten := by
  simp only [List.mem_flatten, List.mem_map]
  constructor
  · rintro ⟨l, ⟨cl, hcl, rfl⟩, hb⟩
    exact ⟨cl, hcl, (sortByCountDesc_perm counts cl).mem_iff.mp hb⟩
  · rintro ⟨cl, hcl, hb⟩
    exact ⟨sortByCountDesc counts cl, ⟨cl, hcl, rfl⟩,
      (sortByCountDesc_perm counts cl).mem_iff.mpr hb⟩

theorem clusters_lists_facts (umis : List Barcode)
    (graph : Barcode → List Barcode) (counts : Barcode → Nat)
    (hnd : umis.Nodup) (hclosed : ∀ u v, v ∈ graph u → v ∈ umis)
    (hsymm : ∀ a b, b ∈ graph a → a ∈ graph b) :
    ((clustersToLists umis
        (get_connected_components_adjacency umis graph counts)).flatten.Nodup) ∧
      (∀ b, b ∈ (clustersToLists umis
        (get_connected_components_adjacency umis graph counts)).flatten ↔
        b ∈ umis) := by
  have hadjU : ∀ u ∈ umis.toFinset, ∀ v ∈ graph u, v ∈ umis.toFinset :=
    fun u _ v hv => List.mem_toFinset.mpr (hclosed u v hv)
  have hfuel : umis.toFinset.card < umis.length + 1 :=
    Nat.lt_succ_of_le umis.toFinset_card_le
  have horder : ∀ u ∈ sortByCountDesc counts umis, u ∈ umis.toFinset :=
    fun u hu => List.mem_toFinset.mpr ((sortByCountDesc_perm counts umis).mem_iff.mp hu)
  have hdisj := (chainSpec_symm_disjoint graph hsymm _ ∅ (by simp)
    (ccLoop_chainSpec graph umis.toFinset hadjU (umis.length + 1) hfuel
      (sortByCountDesc counts umis) ∅ horder)).2
  constructor
  · rw [List.nodup_flatten]
    constructor
    · intro l hl
      obtain ⟨c, _, rfl⟩ := List.mem_map.mp hl
      exact hnd.filter _
    · unfold clustersToLists
      rw [List.pairwise_map]
      refine hdisj.imp ?_
      intro c d hcd x hx1 hx2
      exact hcd x (by simpa using (List.mem_filter.mp hx1).2)
        (by simpa using (List.mem_filter.mp hx2).2)
  · intro b
    simp only [clustersToLists, List.mem_flatten, List.mem_map]
    constructor
    · rintro ⟨l, ⟨c, hc, rfl⟩, hb⟩
      exact (List.mem_filter.mp hb).1
    · intro hb
      have hcov : ∃ c ∈ ccLoop graph (umis.length + 1)
          (sortByCountDesc counts umis) ∅, b ∈ c := by
        rcases ccLoop_cover graph umis.toFinset hadjU (umis.length + 1) hfuel
            (sortByCountDesc counts umis) ∅ horder b
            ((sortByCountDesc_perm counts umis).mem_iff.mpr hb) with h | h
        · exact absurd h (by simp)
        · exact h
      obtain ⟨c, hc, hbc⟩ := hcov
      exact ⟨umis.filter (fun u => decide (u ∈ c)), ⟨c, hc, rfl⟩,
        List.mem_filter.mpr ⟨hb, by simpa using hbc⟩⟩

theorem dir_loop_spec (counts : Barcode → Nat) (adj : Barcode → List Barcode)
    (umis : List Barcode) (hnd : umis.Nodup) :
    ∀ (comps : List (Finset Barcode)) (obs : Finset Barcode),
      ChainSpec adj obs comps →
      (∀ c ∈ comps, ∀ x ∈ c, x ∈ umis) →
      ((group_directional_loop counts
          (comps.map (fun c => umis.filter (fun u => decide (u ∈ c)))) obs).flatten.Nodup ∧
        ∀ b, b ∈ (group_directional_loop counts
            (comps.map (fun c => umis.filter (fun u => decide (u ∈ c)))) obs).flatten ↔
          ((∃ c ∈ comps, b ∈ c) ∧ b ∉ obs))
  | [], obs, _, _ => by
    constructor
    · simp [group_directional_loop]
    · intro b
      simp [group_directional_loop]
  | c :: rest, obs, hspec, hsub => by
    obtain ⟨⟨s, hs, hciff⟩, hrest⟩ := hspec
    have hsubc : ∀ x ∈ c, x ∈ umis := hsub c (List.mem_cons_self _ _)
    have hsubrest : ∀ c' ∈ rest, ∀ x ∈ c', x ∈ umis :=
      fun c' hc' => hsub c' (List.mem_cons_of_mem _ hc')
    have hfc_mem : ∀ b, b ∈ umis.filter (fun u => decide (u ∈ c)) ↔ b ∈ c := by
      intro b
      rw [List.mem_filter]
      constructor
      · intro h
        simpa using h.2
      · intro h
        exact ⟨hsubc b h, by simpa using h⟩
    rw [List.map_cons, group_directional_loop]
    by_cases hlen1 : (umis.filter (fun u => decide (u ∈ c))).length = 1
    · rw [if_pos hlen1]
      obtain ⟨x, hx⟩ := List.length_eq_one.mp hlen1
      have hxc : ∀ y, y ∈ c ↔ y = x := by
        intro y
        rw [← hfc_mem y, hx, List.mem_singleton]
      have hxnobs : x ∉ obs := by
        have hsx : s = x := (hxc s).mp ((hciff s).mpr Relation.ReflTransGen.refl)
        exact hsx ▸ hs
      have hobseq : obs ∪ (umis.filter (fun u => decide (u ∈ c))).toFinset =
          obs ∪ c := by
        ext y
        simp only [Finset.mem_union, List.mem_toFinset, hfc_mem y]
      rw [hobseq]
      obtain ⟨ihnd, ihmem⟩ := dir_loop_spec counts adj umis hnd rest (obs ∪ c)
        hrest hsubrest
      constructor
      · rw [List.flatten_cons, hx]
        refine List.Nodup.append (by simp) ihnd ?_
        intro y hy1 hy2
        rw [List.mem_singleton.mp hy1] at hy2
        exact ((ihmem x).mp hy2).2 (Finset.mem_union_right _ ((hxc x).mpr rfl))
      · intro b
        rw [List.flatten_cons, List.mem_append, hx, List.mem_singleton, ihmem b]
        constructor
        · rintro (rfl | ⟨⟨c', hc', hbc'⟩, hbno⟩)
          · exact ⟨⟨c, List.mem_cons_self _ _, (hxc b).mpr rfl⟩, hxnobs⟩
          · exact ⟨⟨c', List.mem_cons_of_mem _ hc', hbc'⟩,
              fun hb => hbno (Finset.mem_union_left _ hb)⟩
        · rintro ⟨⟨c', hc', hbc'⟩, hbno⟩
          rcases List.mem_cons.mp hc' with rfl | hc'
          · exact Or.inl ((hxc b).mp hbc')
          · by_cases hbc : b ∈ c
            · exact Or.inl ((hxc b).mp hbc)
            · exact Or.inr ⟨⟨c', hc', hbc'⟩, by
                intro hb
                rcases Finset.mem_union.mp hb with hb | hb
                · exact hbno hb
                · exact hbc hb⟩
    · rw [if_neg hlen1]
      have hsortmem : ∀ b, b ∈ sortByCountDesc counts
          (umis.filter (fun u => decide (u ∈ c))) ↔ b ∈ c := by
        intro b
        rw [(sortByCountDesc_perm counts _).mem_iff, hfc_mem b]
      have hobs2 : (dirSweep (sortByCountDesc counts
          (umis.filter (fun u => decide (u ∈ c)))) obs).2 = obs ∪ c := by
        rw [dirSweep_snd]
        ext y
        simp only [Finset.mem_union, List.mem_toFinset, hsortmem y]
      rw [hobs2]
      obtain ⟨ihnd, ihmem⟩ := dir_loop_spec counts adj umis hnd rest (obs ∪ c)
        hrest hsubrest
      have htmem : ∀ b, b ∈ (dirSweep (sortByCountDesc counts
          (umis.filter (fun u => decide (u ∈ c)))) obs).1 ↔ (b ∈ c ∧ b ∉ obs) := by
        intro b
        rw [dirSweep_mem, hsortmem b]
      constructor
      · rw [List.flatten_cons]
        refine List.Nodup.append (dirSweep_nodup _ _) ihnd ?_
        intro y hy1 hy2
        exact ((ihmem y).mp hy2).2
          (Finset.mem_union_right _ ((htmem y).mp hy1).1)
      · intro b
        rw [List.flatten_cons, List.mem_append, htmem b, ihmem b]
        constructor
        · rintro (⟨hbc, hbo⟩ | ⟨⟨c', hc', hbc'⟩, hbno⟩)
          · exact ⟨⟨c, List.mem_cons_self _ _, hbc⟩, hbo⟩
          · exact ⟨⟨c', List.mem_cons_of_mem _ hc', hbc'⟩,
              fun hb => hbno (Finset.mem_union_left _ hb)⟩
        · rintro ⟨⟨c', hc', hbc'⟩, hbno⟩
          rcases List.mem_cons.mp hc' with rfl | hc'
          · exact Or.inl ⟨hbc', hbno⟩
          · by_cases hbc : b ∈ c
            · exact Or.inl ⟨hbc, hbno⟩
            · exact Or.inr ⟨⟨c', hc', hbc'⟩, by
                intro hb
                rcases Finset.mem_union.mp hb with hb | hb
                · exact hbno hb
                · exact hbc hb⟩

theorem min_account_some_props (cluster : List Barcode)
    (adj_list : Barcode → List Barcode) (counts : Barcode → Nat)
    (leads : List Barcode) (hndcl : cluster.Nodup)
    (hlen1 : cluster.length ≠ 1)
    (h : get_best_min_account cluster adj_list counts = some leads) :
    leads.Nodup ∧ (∀ l ∈ leads, l ∈ cluster) ∧
      remove_umis adj_list cluster.toFinset leads = ∅ := by
  rw [get_best_min_account, if_neg hlen1] at h
  obtain ⟨j, hfind, hleads⟩ := Option.map_eq_some'.mp h
  have hpred := List.find?_some hfind
  have hsortnd : (sortByCountDesc counts cluster).Nodup :=
    (sortByCountDesc_perm counts cluster).nodup_iff.mpr hndcl
  refine ⟨?_, ?_, ?_⟩
  · rw [← hleads]
    exact List.Nodup.sublist (List.take_sublist _ _) hsortnd
  · intro l hl
    rw [← hleads] at hl
    exact (sortByCountDesc_perm counts cluster).mem_iff.mp
      (List.mem_of_mem_take hl)
  · rw [← hleads]
    exact of_decide_eq_true hpred

theorem group_adjacency_aux_spec (adj : Barcode → List Barcode) :
    ∀ (ls : List Barcode) (observed : Finset Barcode),
      ls.Nodup → (∀ l ∈ ls, l ∈ observed) →
      ((group_adjacency_aux adj ls observed).flatten.Nodup ∧
        ∀ b, b ∈ (group_adjacency_aux adj ls observed).flatten ↔
          (b ∈ ls ∨ ∃ l ∈ ls, b ∈ adj l ∧ b ∉ observed))
  | [], observed, _, _ => by
    constructor
    · simp [group_adjacency_aux]
    · intro b
      simp [group_adjacency_aux]
  | lead :: rest, observed, hnd, hobs => by
    obtain ⟨ihnd, ihmem⟩ := group_adjacency_aux_spec adj rest
      (observed ∪ (adj lead).toFinset) (List.nodup_cons.mp hnd).2
      (fun l hl => Finset.mem_union_left _ (hobs l (List.mem_cons_of_mem _ hl)))
    have hgmem : ∀ b, b ∈ lead :: (adj lead).dedup.filter
        (fun x => decide (x ∉ observed)) ↔
        (b = lead ∨ (b ∈ adj lead ∧ b ∉ observed)) := by
      intro b
      simp only [List.mem_cons, List.mem_filter, List.mem_dedup,
        decide_eq_true_eq]
    have hleadobs : lead ∈ observed := hobs lead (List.mem_cons_self _ _)
    have hgnd : (lead :: (adj lead).dedup.filter
        (fun x => decide (x ∉ observed))).Nodup := by
      refine List.nodup_cons.mpr ⟨?_, ((adj lead).nodup_dedup).filter _⟩
      intro hl
      have := (List.mem_filter.mp hl).2
      simp only [decide_eq_true_eq] at this
      exact this hleadobs
    rw [group_adjacency_aux]
    constructor
    · rw [List.flatten_cons]
      refine List.Nodup.append hgnd ihnd ?_
      intro y hy1 hy2
      rcases (hgmem y).mp hy1 with rfl | ⟨hyadj, hyno⟩
      · rcases (ihmem y).mp hy2 with hyr | ⟨l, _, _, hyno⟩
        · exact (List.nodup_cons.mp hnd).1 hyr
        · exact hyno (Finset.mem_union_left _ hleadobs)
      · rcases (ihmem y).mp hy2 with hyr | ⟨l, _, _, hyno⟩
        · exact hyno (hobs y (List.mem_cons_of_mem _ hyr))
        · exact hyno (Finset.mem_union_right _ (List.mem_toFinset.mpr hyadj))
    · intro b
      rw [List.flatten_cons, List.mem_append, hgmem b, ihmem b]
      constructor
      · rintro ((rfl | ⟨hbadj, hbno⟩) | hbr | ⟨l, hl, hbadj, hbno⟩)
        · exact Or.inl (List.mem_cons_self _ _)
        · exact Or.inr ⟨lead, List.mem_cons_self _ _, hbadj, hbno⟩
        · exact Or.inl (List.mem_cons_of_mem _ hbr)
        · exact Or.inr ⟨l, List.mem_cons_of_mem _ hl, hbadj,
            fun hb => hbno (Finset.mem_union_left _ hb)⟩
      · rintro (hb | ⟨l, hl, hbadj, hbno⟩)
        · rcases List.mem_cons.mp hb with rfl | hb
          · exact Or.inl (Or.inl rfl)
          · exact Or.inr (Or.inl hb)
        · rcases List.mem_cons.mp hl with rfl | hl
          · exact Or.inl (Or.inr ⟨hbadj, hbno⟩)
          · by_cases hbl : b ∈ adj lead
            · exact Or.inl (Or.inr ⟨hbl, hbno⟩)
            · refine Or.inr (Or.inr ⟨l, hl, hbadj, ?_⟩)
              intro hb
              rcases Finset.mem_union.mp hb with hb | hb
              · exact hbno hb
              · exact hbl (List.mem_toFinset.mp hb)

theorem group_adjacency_cluster_spec (adj : Barcode → List Barcode)
    (counts : Barcode → Nat) (cl : List Barcode)
    (hndcl : cl.Nodup) (hnecl : cl ≠ [])
    (hclosedc : ∀ a ∈ cl, ∀ b ∈ adj a, b ∈ cl)
    (hirr : ∀ a ∈ cl, a ∉ adj a)
    (hconn : ∀ a ∈ cl, ∀ b ∈ cl, Reaches adj a b) :
    ∃ gs, group_adjacency_cluster cl adj counts = some gs ∧
      gs.flatten.Nodup ∧ (∀ b, b ∈ gs.flatten ↔ b ∈ cl) := by
  by_cases hlen1 : cl.length = 1
  · refine ⟨[cl], ?_, ?_, ?_⟩
    · rw [group_adjacency_cluster, if_pos hlen1]
    · simpa using hndcl
    · intro b
      simp
  · have hlen2 : 2 ≤ cl.length := by
      have : cl.length ≠ 0 := fun h => hnecl (List.length_eq_zero.mp h)
      omega
    obtain ⟨leads, hleads, hleadsne⟩ :=
      min_account_total_aux cl adj counts hndcl hlen2 hclosedc hirr hconn
    obtain ⟨hlnd, hlsub, hremove⟩ :=
      min_account_some_props cl adj counts leads hndcl hlen1 hleads
    obtain ⟨auxnd, auxmem⟩ := group_adjacency_aux_spec adj leads leads.toFinset
      hlnd (fun l hl => List.mem_toFinset.mpr hl)
    refine ⟨group_adjacency_aux adj leads leads.toFinset, ?_, auxnd, ?_⟩
    · rw [group_adjacency_cluster, if_neg hlen1, hleads]
      rfl
    · intro b
      rw [auxmem b]
      constructor
      · rintro (hb | ⟨l, hl, hbadj, _⟩)
        · exact hlsub b hb
        · exact hclosedc l (hlsub l hl) b hbadj
      · intro hb
        have hbig : b ∈ ((leads.map adj).flatten ++ leads).toFinset := by
          by_contra hno
          have : b ∈ remove_umis adj cl.toFinset leads := by
            rw [remove_umis, Finset.mem_sdiff]
            exact ⟨List.mem_toFinset.mpr hb, hno⟩
          rw [hremove] at this
          simp at this
        rw [List.mem_toFinset, List.mem_append] at hbig
        rcases hbig with hbig | hbig
        · by_cases hbl : b ∈ leads
          · exact Or.inl hbl
          · obtain ⟨l', ⟨l, hl, rfl⟩, hbadj⟩ := by
              simpa only [List.mem_flatten, List.mem_map] using hbig
            exact Or.inr ⟨l, hl, hbadj, fun hc => hbl (List.mem_toFinset.mp hc)⟩
        · exact Or.inl hbig

theorem group_adjacency_all_spec (adj : Barcode → List Barcode)
    (counts : Barcode → Nat) :
    ∀ (cls : List (List Barcode)),
      (∀ cl ∈ cls, ∃ gs, group_adjacency_cluster cl adj counts = some gs ∧
        gs.flatten.Nodup ∧ (∀ b, b ∈ gs.flatten ↔ b ∈ cl)) →
      cls.Pairwise List.Disjoint →
      ∃ GS, group_adjacency adj counts cls = some GS ∧
        GS.flatten.Nodup ∧ (∀ b, b ∈ GS.flatten ↔ ∃ cl ∈ cls, b ∈ cl)
  | [], _, _ => by
    refine ⟨[], rfl, by simp, ?_⟩
    intro b
    simp
  | cl :: rest, hper, hpair => by
    obtain ⟨gs, hgs, hgnd, hgmem⟩ := hper cl (List.mem_cons_self _ _)
    obtain ⟨GS, hGS, hGnd, hGmem⟩ := group_adjacency_all_spec adj counts rest
      (fun c hc => hper c (List.mem_cons_of_mem _ hc))
      (List.Pairwise.sublist (List.sublist_cons_self _ _) hpair)
    refine ⟨gs ++ GS, ?_, ?_, ?_⟩
    · rw [group_adjacency, hgs, hGS]
    · rw [List.flatten_append]
      refine List.Nodup.append hgnd hGnd ?_
      intro y hy1 hy2
      obtain ⟨c, hc, hyc⟩ := (hGmem y).mp hy2
      exact (List.rel_of_pairwise_cons hpair hc) ((hgmem y).mp hy1) hyc
    · intro b
      rw [List.flatten_append, List.mem_append, hgmem b, hGmem b]
      constructor
      · rintro (hb | ⟨c, hc, hbc⟩)
        · exact ⟨cl, List.mem_cons_self _ _, hb⟩
        · exact ⟨c, List.mem_cons_of_mem _ hc, hbc⟩
      · rintro ⟨c, hc, hbc⟩
        rcases List.mem_cons.mp hc with rfl | hc
        · exact Or.inl hbc
        · exact Or.inr ⟨c, hc, hbc⟩

theorem chainSpec_each (adj : Barcode → List Barcode) :
    ∀ (comps : List (Finset Barcode)) (found : Finset Barcode),
      ChainSpec adj found comps →
      ∀ c ∈ comps, ∃ s, ∀ b, b ∈ c ↔ Reaches adj s b
  | [], _, _, c, hc => by simp at hc
  | c0 :: rest, found, hspec, c, hc => by
    obtain ⟨⟨s, _, hciff⟩, hrest⟩ := hspec
    rcases List.mem_cons.mp hc with rfl | hc
    · exact ⟨s, hciff⟩
    · exact chainSpec_each adj rest (found ∪ c0) hrest c hc

/-- Claim C1 (amended): for the unique, directional, adjacency and cluster
strategies, every well-formed call succeeds and the concatenation of the
returned groups contains every input barcode exactly once.  (The percentile
strategy is excluded: it deliberately discards barcodes whose count is at or
below median/100; see the counterexample.) -/
theorem C1_group_coverage (m : ClusterMethod) (umis : List Barcode)
    (counts : Barcode → Nat) (threshold : Nat) (hm : m ≠ ClusterMethod.percentile)
    (hne : umis ≠ []) (hnd : umis.Nodup)
    (hlen : ∀ a ∈ umis, ∀ b ∈ umis, List.length a = List.length b)
    (hpos : ∀ u ∈ umis, 0 < counts u) :
    ∃ gs, UMIClusterer_call m umis counts threshold = .ok gs ∧
      gs.flatten.Nodup ∧ (∀ b, b ∈ gs.flatten ↔ b ∈ umis) := by
  have hok : lengthCheck umis = .ok () := by
    obtain ⟨u, rest, rfl⟩ : ∃ u rest, umis = u :: rest := by
      cases umis with
      | nil => exact absurd rfl hne
      | cons u rest => exact ⟨u, rest, rfl⟩
    exact (lengthCheck_ok_iff u rest).mpr
      (fun x hx => hlen x hx u (List.mem_cons_self _ _))
  have hcall : UMIClusterer_call m umis counts threshold =
      runStrategy m umis counts threshold := by
    unfold UMIClusterer_call clusterer_call
    rw [hok]
  have hfuel : umis.toFinset.card < umis.length + 1 :=
    Nat.lt_succ_of_le umis.toFinset_card_le
  have horder : ∀ u ∈ sortByCountDesc counts umis, u ∈ umis.toFinset :=
    fun u hu => List.mem_toFinset.mpr ((sortByCountDesc_perm counts umis).mem_iff.mp hu)
  cases m with
  | percentile => exact absurd rfl hm
  | unique =>
    refine ⟨group_unique umis, by rw [hcall]; rfl, ?_, ?_⟩
    · rw [group_unique_flatten]
      exact hnd
    · intro b
      rw [group_unique_flatten]
  | directional =>
    have hclosed : ∀ u v, v ∈ get_adj_list_directional umis counts threshold u →
        v ∈ umis := fun u v hv => directional_closed umis counts threshold hnd hv
    have hadjU : ∀ u ∈ umis.toFinset,
        ∀ v ∈ get_adj_list_directional umis counts threshold u, v ∈ umis.toFinset :=
      fun u _ v hv => List.mem_toFinset.mpr (hclosed u v hv)
    have hchain := ccLoop_chainSpec (get_adj_list_directional umis counts threshold)
      umis.toFinset hadjU (umis.length + 1) hfuel (sortByCountDesc counts umis) ∅ horder
    have hsubcomps : ∀ c ∈ get_connected_components_adjacency umis
        (get_adj_list_directional umis counts threshold) counts,
        ∀ x ∈ c, x ∈ umis := by
      intro c hc x hx
      exact List.mem_toFinset.mp
        (ccLoop_subsetU (get_adj_list_directional umis counts threshold)
          umis.toFinset hadjU (umis.length + 1) hfuel
          (sortByCountDesc counts umis) ∅ horder c hc x hx)
    obtain ⟨lnd, lmem⟩ := dir_loop_spec counts
      (get_adj_list_directional umis counts threshold) umis hnd
      (get_connected_components_adjacency umis
        (get_adj_list_directional umis counts threshold) counts) ∅ hchain hsubcomps
    refine ⟨group_directional (clustersToLists umis
      (get_connected_components_adjacency umis
        (get_adj_list_directional umis counts threshold) counts)) counts,
      by rw [hcall]; rfl, lnd, ?_⟩
    intro b
    rw [show group_directional (clustersToLists umis
      (get_connected_components_adjacency umis
        (get_adj_list_directional umis counts threshold) counts)) counts =
      group_directional_loop counts
        ((get_connected_components_adjacency umis
          (get_adj_list_directional umis counts threshold) counts).map
          (fun c => umis.filter (fun u => decide (u ∈ c)))) ∅ from rfl]
    rw [lmem b]
    constructor
    · rintro ⟨⟨c, hc, hbc⟩, _⟩
      exact hsubcomps c hc b hbc
    · intro hb
      refine ⟨?_, by simp⟩
      rcases ccLoop_cover (get_adj_list_directional umis counts threshold)
          umis.toFinset hadjU (umis.length + 1) hfuel
          (sortByCountDesc counts umis) ∅ horder b
          ((sortByCountDesc_perm counts umis).mem_iff.mpr hb) with h | h
      · exact absurd h (by simp)
      · exact h
  | cluster =>
    have hclosed : ∀ u v, v ∈ get_adj_list_adjacency umis counts threshold u →
        v ∈ umis := fun u v hv => adjacency_closed umis counts threshold hnd hv
    have hsymm : ∀ a b, b ∈ get_adj_list_adjacency umis counts threshold a →
        a ∈ get_adj_list_adjacency umis counts threshold b :=
      fun a b hab => adjacency_symm umis counts threshold hnd hab
    obtain ⟨lnd, lmem⟩ := clusters_lists_facts umis
      (get_adj_list_adjacency umis counts threshold) counts hnd hclosed hsymm
    refine ⟨group_cluster (clustersToLists umis
      (get_connected_components_adjacency umis
        (get_adj_list_adjacency umis counts threshold) counts)) counts,
      by rw [hcall]; rfl, ?_, ?_⟩
    · exact sorted_flatten_nodup counts _ lnd
    · intro b
      rw [show group_cluster (clustersToLists umis
        (get_connected_components_adjacency umis
          (get_adj_list_adjacency umis counts threshold) counts)) counts =
        (clustersToLists umis (get_connected_components_adjacency umis
          (get_adj_list_adjacency umis counts threshold) counts)).map
          (sortByCountDesc counts) from rfl]
      rw [sorted_flatten_mem counts _ b]
      exact lmem b
  | adjacency =>
    have hclosed : ∀ u v, v ∈ get_adj_list_adjacency umis counts threshold u →
        v ∈ umis := fun u v hv => adjacency_closed umis counts threshold hnd hv
    have hsymm : ∀ a b, b ∈ get_adj_list_adjacency umis counts threshold a →
        a ∈ get_adj_list_adjacency umis counts threshold b :=
      fun a b hab => adjacency_symm umis counts threshold hnd hab
    have hadjU : ∀ u ∈ umis.toFinset,
        ∀ v ∈ get_adj_list_adjacency umis counts threshold u, v ∈ umis.toFinset :=
      fun u _ v hv => List.mem_toFinset.mpr (hclosed u v hv)
    have hchain := ccLoop_chainSpec (get_adj_list_adjacency umis counts threshold)
      umis.toFinset hadjU (umis.length + 1) hfuel (sortByCountDesc counts umis) ∅ horder
    have hsubcomps : ∀ c ∈ get_connected_components_adjacency umis
        (get_adj_list_adjacency umis counts threshold) counts,
        ∀ x ∈ c, x ∈ umis := by
      intro c hc x hx
      exact List.mem_toFinset.mp
        (ccLoop_subsetU (get_adj_list_adjacency umis counts threshold)
          umis.toFinset hadjU (umis.length + 1) hfuel
          (sortByCountDesc counts umis) ∅ horder c hc x hx)
    have hper : ∀ cl ∈ clustersToLists umis
        (get_connected_components_adjacency umis
          (get_adj_list_adjacency umis counts threshold) counts),
        ∃ gs, group_adjacency_cluster cl
          (get_adj_list_adjacency umis counts threshold) counts = some gs ∧
          gs.flatten.Nodup ∧ (∀ b, b ∈ gs.flatten ↔ b ∈ cl) := by
      intro cl hcl
      obtain ⟨c, hc, rfl⟩ := List.mem_map.mp hcl
      obtain ⟨s, hciff⟩ := chainSpec_each
        (get_adj_list_adjacency umis counts threshold) _ ∅ hchain c hc
      have hclmem : ∀ b, b ∈ umis.filter (fun u => decide (u ∈ c)) ↔ b ∈ c := by
        intro b
        rw [List.mem_filter]
        constructor
        · intro h
          simpa using h.2
        · intro h
          exact ⟨hsubcomps c hc b h, by simpa using h⟩
      have hsmem : s ∈ c := (hciff s).mpr Relation.ReflTransGen.refl
      refine group_adjacency_cluster_spec _ counts _ (hnd.filter _)
        (List.ne_nil_of_mem ((hclmem s).mpr hsmem)) ?_ ?_ ?_
      · intro a ha b hb
        refine (hclmem b).mpr ((hciff b).mpr
          (((hciff a).mp ((hclmem a).mp ha)).tail ?_))
        exact hb
      · intro a _
        exact adjacency_irrefl umis counts threshold hnd a
      · intro a ha b hb
        exact (reaches_symm _ hsymm ((hciff a).mp ((hclmem a).mp ha))).trans
          ((hciff b).mp ((hclmem b).mp hb))
    have hpair : (clustersToLists umis
        (get_connected_components_adjacency umis
          (get_adj_list_adjacency umis counts threshold) counts)).Pairwise
        List.Disjoint := by
      unfold clustersToLists
      rw [List.pairwise_map]
      refine ((chainSpec_symm_disjoint _ hsymm _ ∅ (by simp) hchain).2).imp ?_
      intro c d hcd x hx1 hx2
      exact hcd x (by simpa using (List.mem_filter.mp hx1).2)
        (by simpa using (List.mem_filter.mp hx2).2)
    obtain ⟨GS, hGS, hGnd, hGmem⟩ := group_adjacency_all_spec
      (get_adj_list_adjacency umis counts threshold) counts
      (clustersToLists umis (get_connected_components_adjacency umis
        (get_adj_list_adjacency umis counts threshold) counts)) hper hpair
    refine ⟨GS, ?_, hGnd, ?_⟩
    · rw [hcall]
      unfold runStrategy
      rw [hGS]
    · intro b
      rw [hGmem b]
      constructor
      · rintro ⟨cl, hcl, hbcl⟩
        obtain ⟨c, hc, rfl⟩ := List.mem_map.mp hcl
        exact (List.mem_filter.mp hbcl).1
      · intro hb
        have hcov : ∃ c ∈ ccLoop (get_adj_list_adjacency umis counts threshold)
            (umis.length + 1) (sortByCountDesc counts umis) ∅, b ∈ c := by
          rcases ccLoop_cover (get_adj_list_adjacency umis counts threshold)
              umis.toFinset hadjU (umis.length + 1) hfuel
              (sortByCountDesc counts umis) ∅ horder b
              ((sortByCountDesc_perm counts umis).mem_iff.mpr hb) with h | h
          · exact absurd h (by simp)
          · exact h
        obtain ⟨c, hc, hbc⟩ := hcov
        exact ⟨umis.filter (fun u => decide (u ∈ c)),
          List.mem_map.mpr ⟨c, hc, rfl⟩,
          List.mem_filter.mpr ⟨hb, by simpa using hbc⟩⟩

theorem C1_group_coverage_witness :
    ∃ gs, UMIClusterer_call .directional [['A','A'], ['A','T']]
        (fun _ => 1) 1 = .ok gs ∧
      gs.flatten.Nodup ∧
      (∀ b, b ∈ gs.flatten ↔ b ∈ ([['A','A'], ['A','T']] : List Barcode)) :=
  C1_group_coverage .directional [['A','A'], ['A','T']] (fun _ => 1) 1
    (by decide) (by decide) (by decide) (by decide) (by decide)

/-- Claim C1 (counterexample): with the well-formed input
`{"AA": 1, "CC": 1000, "GG": 1000}` the percentile strategy drops the
low-count barcode "AA": the concatenation of the returned groups does not
contain every input barcode. -/
theorem C1_percentile_drops_counterexample :
    UMIClusterer_call .percentile c7keys c7counts 1 =
      .ok [[['C','C']], [['G','G']]] ∧
      ['A','A'] ∈ c7keys ∧
      ['A','A'] ∉ ([[['C','C']], [['G','G']]] : List (List Barcode)).flatten := by
  refine ⟨?_, by decide, by decide⟩
  have hmed : npMedian (c7keys.map c7counts) = 1000 := rfl
  have hAA : decide ((c7counts ['A','A'] : ℚ) >
      npMedian (c7keys.map c7counts) / 100) = false := by
    apply decide_eq_false
    rw [hmed, show c7counts ['A','A'] = 1 from rfl]
    norm_num
  have hCC : decide ((c7counts ['C','C'] : ℚ) >
      npMedian (c7keys.map c7counts) / 100) = true := by
    apply decide_eq_true
    rw [hmed, show c7counts ['C','C'] = 1000 from rfl]
    norm_num
  have hGG : decide ((c7counts ['G','G'] : ℚ) >
      npMedian (c7keys.map c7counts) / 100) = true := by
    apply decide_eq_true
    rw [hmed, show c7counts ['G','G'] = 1000 from rfl]
    norm_num
  have hcall : UMIClusterer_call .percentile c7keys c7counts 1 =
      .ok ((c7keys.filter (fun read => decide ((c7counts read : ℚ) >
        npMedian (c7keys.map c7counts) / 100))).map (fun x => [x])) := rfl
  rw [hcall]
  have hfil : c7keys.filter (fun read => decide ((c7counts read : ℚ) >
      npMedian (c7keys.map c7counts) / 100)) = [['C','C'], ['G','G']] := by
    rw [show (c7keys.filter (fun read => decide ((c7counts read : ℚ) >
        npMedian (c7keys.map c7counts) / 100))) =
      List.filter (fun read => decide ((c7counts read : ℚ) >
        npMedian (c7keys.map c7counts) / 100))
        (['A','A'] :: ['C','C'] :: ['G','G'] :: ([] : List Barcode)) from rfl]
    simp only [List.filter_cons, List.filter_nil, hAA, hCC, hGG]
    rfl
  rw [hfil]
  rfl
